import Mathlib

/-!
Verification of the edgeengineer/dbus repository against its specification.

The repository's only source file is `Sources/CDBus/include/cdbus.h`, a
preprocessor-only header.  Part 1 embeds a small C-preprocessor semantics and
the header's directive list, and proves the platform-selection, include-guard
and line-count claims.  Part 2 models, from the specification's words, the
D-Bus client protocol core the spec describes (wire codec, dispatcher,
handshake) and proves the claims about it.
-/

set_option maxRecDepth 4000

namespace CDBus

/-! ## Part 1: the C preprocessor fragment used by cdbus.h -/

/-- The kinds of include directives: quoted includes use a literal path,
angled includes use the system search path. -/
inductive Include where
  | quoted (path : String)
  | angled (path : String)
deriving DecidableEq, Repr

/-- One line of a preprocessor-only header, as cdbus.h uses the language:
`#ifndef`, `#define`, `#if defined(M)`, `#elif defined(M)`, `#else`,
`#endif`, `#include`, `#error`, comments and blank lines. -/
inductive PPLine where
  | ifndefDir (m : String)
  | defineDir (m : String)
  | ifDefined (m : String)
  | elifDefined (m : String)
  | elseDir
  | endifDir
  | includeQuoted (path : String)
  | includeAngled (path : String)
  | errorDir (msg : String)
  | blank
  | comment (text : String)
deriving DecidableEq, Repr

/-- Result of preprocessing: the macros defined at the end and the includes
emitted, in order. -/
structure PPState where
  defined : List String
  includes : List Include
deriving DecidableEq, Repr

/-- Whether macro `m` is defined in environment `env`. -/
def isDefined (env : List String) (m : String) : Bool :=
  match env with
  | [] => false
  | x :: xs => x == m || isDefined xs m

/-- Execute preprocessor lines.  The conditional stack holds one frame per
open `#if`-group: `live` is whether the current branch is being taken,
`taken` whether any branch of the group has been taken so far.  A directive
has effect only when every frame on the stack is live.  `#error` in a live
region aborts preprocessing with the message. -/
def ppExec : List PPLine → List String → List (Bool × Bool) → List Include →
    Except String PPState
  | [], env, stack, incs =>
      if stack.isEmpty then .ok ⟨env, incs⟩ else .error "unterminated conditional"
  | (l :: rest), env, stack, incs =>
    let active := stack.all (fun f => f.1)
    match l with
    | .ifndefDir m =>
        ppExec rest env ((!isDefined env m, !isDefined env m) :: stack) incs
    | .defineDir m =>
        ppExec rest (if active then m :: env else env) stack incs
    | .ifDefined m =>
        ppExec rest env ((isDefined env m, isDefined env m) :: stack) incs
    | .elifDefined m =>
        match stack with
        | [] => .error "elif without if"
        | (_, taken) :: s =>
            ppExec rest env ((!taken && isDefined env m, taken || isDefined env m) :: s) incs
    | .elseDir =>
        match stack with
        | [] => .error "else without if"
        | (_, taken) :: s => ppExec rest env ((!taken, true) :: s) incs
    | .endifDir =>
        match stack with
        | [] => .error "endif without if"
        | _ :: s => ppExec rest env s incs
    | .includeQuoted p =>
        ppExec rest env stack (if active then incs ++ [.quoted p] else incs)
    | .includeAngled p =>
        ppExec rest env stack (if active then incs ++ [.angled p] else incs)
    | .errorDir msg =>
        if active then .error msg else ppExec rest env stack incs
    | .blank => ppExec rest env stack incs
    | .comment _ => ppExec rest env stack incs

/-- The Homebrew dbus header path included on Apple platforms. -/
def homebrewPath : String := "/opt/homebrew/opt/dbus/include/dbus-1.0/dbus/dbus.h"

/-- The directive lines of `Sources/CDBus/include/cdbus.h`, one entry per
source line (the final `#endif /* CDBUS_H */` is an endif with a trailing
comment). -/
def cdbusLines : List PPLine :=
  [ .ifndefDir "CDBUS_H",
    .defineDir "CDBUS_H",
    .blank,
    .comment "Platform-specific includes for D-Bus",
    .ifDefined "__APPLE__",
    .comment "On macOS, use the Homebrew installation with absolute paths",
    .includeQuoted homebrewPath,
    .elifDefined "__linux__",
    .comment "On Linux, use the system headers",
    .includeAngled "dbus/dbus.h",
    .elseDir,
    .errorDir "Unsupported platform",
    .endifDir,
    .blank,
    .endifDir ]

/-- Preprocess cdbus.h once in a fresh translation unit whose predefined
macro environment is `env`. -/
def preprocessCdbus (env : List String) : Except String PPState :=
  ppExec cdbusLines env [] []

/-- The includes cdbus.h emits under environment `env`, or the compile-time
error it raises. -/
def cdbusOutcome (env : List String) : Except String (List Include) :=
  (preprocessCdbus env).map (fun st => st.includes)

/-- The raw text of `Sources/CDBus/include/cdbus.h` (the file ends without a
trailing newline). -/
def cdbusSource : String :=
  "#ifndef CDBUS_H\n#define CDBUS_H\n\n// Platform-specific includes for D-Bus\n#if defined(__APPLE__)\n  // On macOS, use the Homebrew installation with absolute paths\n  #include \"/opt/homebrew/opt/dbus/include/dbus-1.0/dbus/dbus.h\"\n#elif defined(__linux__)\n  // On Linux, use the system headers\n  #include <dbus/dbus.h>\n#else\n  #error \"Unsupported platform\"\n#endif\n\n#endif /* CDBUS_H */"

/-- Number of newline characters in a string: the line count in the `wc -l`
convention the spec's "14-line header" uses. -/
def newlineCount (s : String) : Nat :=
  (s.data.filter (fun c => c == '\n')).length

/-- Classification of a raw source line: a preprocessor directive, a pure
comment line, a blank line, or anything else (which would be C code proper:
declarations, statements, data). -/
inductive LineKind where
  | directive
  | comment
  | blank
  | code
deriving DecidableEq, Repr

/-- Split a character stream into lines at newline characters. -/
def splitLinesAux : List Char → List Char → List (List Char)
  | [], acc => [acc.reverse]
  | c :: cs, acc =>
      if c == '\n' then acc.reverse :: splitLinesAux cs []
      else splitLinesAux cs (c :: acc)

/-- The lines of a string, as character lists. -/
def splitLines (s : String) : List (List Char) :=
  splitLinesAux s.data []

/-- Classify one raw line of the header. -/
def lineKind (l : List Char) : LineKind :=
  let t := l.dropWhile (fun c => c == ' ')
  if t.isEmpty then .blank
  else if t.head? == some '#' then .directive
  else if t.take 2 == ['/', '/'] then .comment
  else .code

/-! ## Part 2: the D-Bus client protocol core described by the spec

The repository contains no implementation of the protocol core; the
specification defines it in prose (sections 3-5, 7, 8).  Everything in this
part is modelled from the spec's words. -/

namespace DBus

/-- Modelled from the spec: byte order is negotiated once per connection
(little- or big-endian) and fixed for its lifetime. -/
inductive ByteOrder where
  | little
  | big
deriving DecidableEq, Repr

/-- Modelled from the spec: the type structure a signature describes, one
constructor per supported TypedValue shape: byte, boolean, 16/32/64-bit
signed/unsigned integers, double, string, object-path, signature, array,
struct, variant and dict-entry. -/
inductive DType where
  | byte
  | boolean
  | int16
  | uint16
  | int32
  | uint32
  | int64
  | uint64
  | double
  | string
  | objectPath
  | signature
  | array (elem : DType)
  | struct (fields : List DType)
  | variant
  | dictEntry (key value : DType)
deriving Repr


/-- Modelled from the spec: every value is aligned to its type's natural
boundary (1/2/4/8 bytes), the standard D-Bus alignments. -/
def alignOf : DType → Nat
  | .byte => 1
  | .boolean => 4
  | .int16 => 2
  | .uint16 => 2
  | .int32 => 4
  | .uint32 => 4
  | .int64 => 8
  | .uint64 => 8
  | .double => 8
  | .string => 4
  | .objectPath => 4
  | .signature => 1
  | .array _ => 4
  | .struct _ => 8
  | .variant => 1
  | .dictEntry _ _ => 8

/-- A basic (non-container) type; the spec restricts dict keys to these. -/
def isBasic : DType → Bool
  | .array _ => false
  | .struct _ => false
  | .variant => false
  | .dictEntry _ _ => false
  | _ => true

mutual

/-- The standard D-Bus signature string of a type, as a list of ASCII
codes (y b n q i u x t d s o g a v, parentheses for structs and curly
braces for dict entries). -/
def sigBytes : DType → List Nat
  | .byte => [121]
  | .boolean => [98]
  | .int16 => [110]
  | .uint16 => [113]
  | .int32 => [105]
  | .uint32 => [117]
  | .int64 => [120]
  | .uint64 => [116]
  | .double => [100]
  | .string => [115]
  | .objectPath => [111]
  | .signature => [103]
  | .array t => 97 :: sigBytes t
  | .struct fields => 40 :: (sigListBytes fields ++ [41])
  | .variant => [118]
  | .dictEntry k v => 123 :: (sigBytes k ++ sigBytes v ++ [125])

/-- Signature codes of a sequence of types, concatenated. -/
def sigListBytes : List DType → List Nat
  | [] => []
  | t :: ts => sigBytes t ++ sigListBytes ts

end

/-- Equality test for types, by comparing their signature strings (the
signature determines the type). -/
def dtypeBeq (a b : DType) : Bool :=
  sigBytes a == sigBytes b

mutual

/-- Modelled from the spec: a well-formed type.  Arrays are over well-formed
element types, structs have at least one field (the D-Bus grammar has no
empty struct signature), dict keys are restricted to basic types. -/
def validType : DType → Bool
  | .array t => validType t
  | .struct fields => !fields.isEmpty && validTypes fields
  | .dictEntry k v => isBasic k && validType k && validType v
  | _ => true

/-- All types in a list are well-formed. -/
def validTypes : List DType → Bool
  | [] => true
  | t :: ts => validType t && validTypes ts

end

/-- Modelled from the spec: a TypedValue is a tagged variant over byte,
boolean, the sized integers, double, string, object-path, signature,
array, struct, variant and dict-entry.  The double is carried as its
64-bit pattern, the string payloads as Lean strings, a signature payload
as the list of types it denotes. -/
inductive TypedValue where
  | byte (n : Nat)
  | boolean (b : Bool)
  | int16 (i : Int)
  | uint16 (n : Nat)
  | int32 (i : Int)
  | uint32 (n : Nat)
  | int64 (i : Int)
  | uint64 (n : Nat)
  | double (bits : Nat)
  | string (s : String)
  | objectPath (s : String)
  | signature (ts : List DType)
  | array (elem : DType) (items : List TypedValue)
  | struct (fields : List TypedValue)
  | variant (t : DType) (v : TypedValue)
  | dictEntry (key value : TypedValue)
deriving Repr

/-- UTF-8 encoding of one Unicode code point, the standard 1-4 byte forms. -/
def utf8EncodeChar (c : Nat) : List Nat :=
  if c < 128 then [c]
  else if c < 2048 then [192 + c / 64, 128 + c % 64]
  else if c < 65536 then [224 + c / 4096, 128 + c / 64 % 64, 128 + c % 64]
  else [240 + c / 262144, 128 + c / 4096 % 64, 128 + c / 64 % 64, 128 + c % 64]

/-- UTF-8 encoding of a character sequence. -/
def utf8Encode : List Char → List Nat
  | [] => []
  | c :: cs => utf8EncodeChar c.toNat ++ utf8Encode cs

/-- Decode one UTF-8 sequence from the front of the bytes: the code point
and the remaining bytes, or `none` when the front is not a valid 1-4 byte
sequence. -/
def utf8DecStep : List Nat → Option (Nat × List Nat)
  | [] => none
  | b0 :: rest =>
    if b0 < 128 then some (b0, rest)
    else if b0 < 192 then none
    else if b0 < 224 then
      match rest with
      | b1 :: rest1 =>
        if 128 ≤ b1 ∧ b1 < 192 then some ((b0 - 192) * 64 + (b1 - 128), rest1)
        else none
      | _ => none
    else if b0 < 240 then
      match rest with
      | b1 :: b2 :: rest2 =>
        if (128 ≤ b1 ∧ b1 < 192) ∧ (128 ≤ b2 ∧ b2 < 192) then
          some ((b0 - 224) * 4096 + (b1 - 128) * 64 + (b2 - 128), rest2)
        else none
      | _ => none
    else if b0 < 248 then
      match rest with
      | b1 :: b2 :: b3 :: rest3 =>
        if ((128 ≤ b1 ∧ b1 < 192) ∧ (128 ≤ b2 ∧ b2 < 192)) ∧ (128 ≤ b3 ∧ b3 < 192) then
          some ((b0 - 240) * 262144 + (b1 - 128) * 4096 + (b2 - 128) * 64 + (b3 - 128), rest3)
        else none
      | _ => none
    else none

/-- Decode up to `fuel` UTF-8 sequences until the bytes run out. -/
def utf8DecodeAux : Nat → List Nat → Option (List Char)
  | _, [] => some []
  | 0, _ :: _ => none
  | fuel + 1, b0 :: rest =>
    match utf8DecStep (b0 :: rest) with
    | some (n, rest1) =>
      match utf8DecodeAux fuel rest1 with
      | some cs => some (Char.ofNat n :: cs)
      | none => none
    | none => none

/-- UTF-8 decoding of a whole byte sequence; `none` when the bytes are not
a valid encoding (each sequence is at least one byte, so the byte count
bounds the character count). -/
def utf8Decode (bs : List Nat) : Option (List Char) :=
  utf8DecodeAux bs.length bs

/-- Little-endian byte list of a value, `w` bytes wide (the value taken
modulo 2 to the 8w). -/
def natLE : Nat → Nat → List Nat
  | 0, _ => []
  | w + 1, v => v % 256 :: natLE w (v / 256)

/-- Value of a little-endian byte list. -/
def natFromLE : List Nat → Nat
  | [] => 0
  | b :: bs => b + 256 * natFromLE bs

/-- Encode an unsigned value on `w` bytes in the connection's byte order. -/
def putUInt (bo : ByteOrder) (w v : Nat) : List Nat :=
  match bo with
  | .little => natLE w v
  | .big => (natLE w v).reverse

/-- Read back an unsigned value from bytes in the connection's byte order. -/
def getUInt (bo : ByteOrder) (bs : List Nat) : Nat :=
  match bo with
  | .little => natFromLE bs
  | .big => natFromLE bs.reverse

/-- Two's complement wire representation of a signed integer on `w` bytes. -/
def intToWire (w : Nat) (i : Int) : Nat :=
  (i % ((2 : Int) ^ (8 * w))).toNat

/-- Signed integer denoted by a `w`-byte two's complement wire value. -/
def intFromWire (w : Nat) (n : Nat) : Int :=
  if n < 2 ^ (8 * w - 1) then (n : Int) else (n : Int) - (2 : Int) ^ (8 * w)

/-- Number of padding bytes needed to bring offset `off` to alignment `a`. -/
def padLen (off a : Nat) : Nat :=
  (a - off % a) % a

/-- The padding bytes themselves (always zero). -/
def padBytes (off a : Nat) : List Nat :=
  List.replicate (padLen off a) 0

mutual

/-- Modelled from the spec's wire codec: encode a value starting at stream
offset `off`.  Every value is aligned to its type's natural boundary by
inserting zero padding first; strings and object paths are 4-byte
length-prefixed UTF-8 bytes plus a NUL terminator not counted in the
length; signatures are 1-byte length-prefixed; arrays carry a 4-byte byte
length of the element region, then padding to the element alignment, then
the elements; variants carry their signature string inline (1-byte
length-prefixed) followed by the value; structs and dict entries align to
8 and lay their members out in sequence. -/
def encTV (bo : ByteOrder) (off : Nat) : TypedValue → List Nat
  | .byte n => [n % 256]
  | .boolean b => padBytes off 4 ++ putUInt bo 4 (cond b 1 0)
  | .int16 i => padBytes off 2 ++ putUInt bo 2 (intToWire 2 i)
  | .uint16 n => padBytes off 2 ++ putUInt bo 2 n
  | .int32 i => padBytes off 4 ++ putUInt bo 4 (intToWire 4 i)
  | .uint32 n => padBytes off 4 ++ putUInt bo 4 n
  | .int64 i => padBytes off 8 ++ putUInt bo 8 (intToWire 8 i)
  | .uint64 n => padBytes off 8 ++ putUInt bo 8 n
  | .double bits => padBytes off 8 ++ putUInt bo 8 bits
  | .string s =>
      let bs := utf8Encode s.data
      padBytes off 4 ++ putUInt bo 4 bs.length ++ bs ++ [0]
  | .objectPath s =>
      let bs := utf8Encode s.data
      padBytes off 4 ++ putUInt bo 4 bs.length ++ bs ++ [0]
  | .signature ts =>
      let bs := sigListBytes ts
      putUInt bo 1 bs.length ++ bs ++ [0]
  | .array e items =>
      let p1 := padBytes off 4
      let p2 := padBytes (off + p1.length + 4) (alignOf e)
      let elems := encSeq bo (off + p1.length + 4 + p2.length) items
      p1 ++ putUInt bo 4 elems.length ++ p2 ++ elems
  | .struct fields =>
      let p := padBytes off 8
      p ++ encSeq bo (off + p.length) fields
  | .variant t v =>
      let bs := sigBytes t
      let pre := putUInt bo 1 bs.length ++ bs ++ [0]
      pre ++ encTV bo (off + pre.length) v
  | .dictEntry k v =>
      let p := padBytes off 8
      let kb := encTV bo (off + p.length) k
      p ++ kb ++ encTV bo (off + p.length + kb.length) v

/-- Encode a sequence of values one after another, each aligned relative
to the running offset. -/
def encSeq (bo : ByteOrder) (off : Nat) : List TypedValue → List Nat
  | [] => []
  | v :: vs =>
      let b := encTV bo off v
      b ++ encSeq bo (off + b.length) vs

end

mutual

/-- An offset-independent upper bound on the encoded size of a value
(padding never exceeds 7 bytes). -/
def encUB : TypedValue → Nat
  | .byte _ => 8
  | .boolean _ => 11
  | .int16 _ => 9
  | .uint16 _ => 9
  | .int32 _ => 11
  | .uint32 _ => 11
  | .int64 _ => 15
  | .uint64 _ => 15
  | .double _ => 15
  | .string s => 12 + (utf8Encode s.data).length
  | .objectPath s => 12 + (utf8Encode s.data).length
  | .signature ts => 9 + (sigListBytes ts).length
  | .array _ items => 18 + encUBList items
  | .struct fields => 7 + encUBList fields
  | .variant t v => 9 + (sigBytes t).length + encUB v
  | .dictEntry k v => 7 + encUB k + encUB v

/-- Sum of the size bounds of a list of values. -/
def encUBList : List TypedValue → Nat
  | [] => 0
  | v :: vs => encUB v + encUBList vs

end

mutual

/-- Modelled from the spec: the value `v` is described by signature `t` and
is supported on the wire.  Integer payloads are within their width, arrays
are homogeneous in the element signature, dict keys paired with basic key
types, variants carry a well-formed single complete type whose signature
string fits the 1-byte length, and length-prefixed payloads fit their
4-byte length field. -/
def hasType : TypedValue → DType → Bool
  | .byte n, .byte => n < 256
  | .boolean _, .boolean => true
  | .int16 i, .int16 => -32768 ≤ i && i < 32768
  | .uint16 n, .uint16 => n < 65536
  | .int32 i, .int32 => -2147483648 ≤ i && i < 2147483648
  | .uint32 n, .uint32 => n < 4294967296
  | .int64 i, .int64 => -9223372036854775808 ≤ i && i < 9223372036854775808
  | .uint64 n, .uint64 => n < 18446744073709551616
  | .double bits, .double => bits < 18446744073709551616
  | .string s, .string => (utf8Encode s.data).length < 4294967296
  | .objectPath s, .objectPath => (utf8Encode s.data).length < 4294967296
  | .signature ts, .signature => validTypes ts && (sigListBytes ts).length < 256
  | .array e items, .array e2 => dtypeBeq e e2 && allHasType items e
      && encUBList items < 4294967296
  | .struct vs, .struct ts => hasTypes vs ts
  | .variant t v, .variant => validType t && (sigBytes t).length < 256 && hasType v t
  | .dictEntry k v, .dictEntry tk tv => hasType k tk && hasType v tv
  | _, _ => false

/-- All values in a list have the one element type. -/
def allHasType : List TypedValue → DType → Bool
  | [], _ => true
  | v :: vs, t => hasType v t && allHasType vs t

/-- Values matched pointwise against a list of types. -/
def hasTypes : List TypedValue → List DType → Bool
  | [], [] => true
  | v :: vs, t :: ts => hasType v t && hasTypes vs ts
  | _, _ => false

end

/-- Modelled from the spec's error taxonomy for the codec: malformed
signature, declared length disagreeing with the data, invalid UTF-8,
truncated input, and a value/signature mismatch on the encode side. -/
inductive CodecError where
  | malformedSignature
  | lengthMismatch
  | invalidUtf8
  | truncated
  | typeMismatch
deriving DecidableEq, Repr

/-- Modelled from the spec's encode contract: `encode(value, signature)`
yields the bytes of the value laid out from offset 0, or a CodecError when
the value does not match the signature. -/
def encode (bo : ByteOrder) (t : DType) (v : TypedValue) : Except CodecError (List Nat) :=
  if hasType v t && validType t then .ok (encTV bo 0 v) else .error .typeMismatch

mutual

/-- Parse one complete type from signature codes; fuel bounds recursion
depth. -/
def parseSigOne : Nat → List Nat → Option (DType × List Nat)
  | 0, _ => none
  | _ + 1, [] => none
  | fuel + 1, c :: rest =>
    if c = 121 then some (.byte, rest)
    else if c = 98 then some (.boolean, rest)
    else if c = 110 then some (.int16, rest)
    else if c = 113 then some (.uint16, rest)
    else if c = 105 then some (.int32, rest)
    else if c = 117 then some (.uint32, rest)
    else if c = 120 then some (.int64, rest)
    else if c = 116 then some (.uint64, rest)
    else if c = 100 then some (.double, rest)
    else if c = 115 then some (.string, rest)
    else if c = 111 then some (.objectPath, rest)
    else if c = 103 then some (.signature, rest)
    else if c = 118 then some (.variant, rest)
    else if c = 97 then
      match parseSigOne fuel rest with
      | some (t, rest1) => some (.array t, rest1)
      | none => none
    else if c = 40 then
      match parseSigInner fuel rest with
      | some (ts, rest1) => some (.struct ts, rest1)
      | none => none
    else if c = 123 then
      match parseSigOne fuel rest with
      | some (k, rest1) =>
        match parseSigOne fuel rest1 with
        | some (v, rest2) =>
          match rest2 with
          | 125 :: rest3 => some (.dictEntry k v, rest3)
          | _ => none
        | none => none
      | none => none
    else none

/-- Parse the field types of a struct up to the closing parenthesis. -/
def parseSigInner : Nat → List Nat → Option (List DType × List Nat)
  | 0, _ => none
  | _ + 1, [] => none
  | fuel + 1, c :: rest =>
    if c = 41 then some ([], rest)
    else
      match parseSigOne fuel (c :: rest) with
      | some (t, rest1) =>
        match parseSigInner fuel rest1 with
        | some (ts, rest2) => some (t :: ts, rest2)
        | none => none
      | none => none

end

/-- Parse a whole signature: a sequence of complete types consuming all of
the input. -/
def parseSigAll : Nat → List Nat → Option (List DType)
  | 0, _ => none
  | _ + 1, [] => some []
  | fuel + 1, bs =>
    match parseSigOne (fuel + 1) bs with
    | some (t, rest) =>
      if rest.length < bs.length then
        match parseSigAll fuel rest with
        | some ts => some (t :: ts)
        | none => none
      else none
    | none => none

/-- Read `n` bytes at offset `off`, or fail when the input is too short. -/
def readBytes (bytes : List Nat) (off n : Nat) : Except CodecError (List Nat) :=
  if off + n ≤ bytes.length then .ok ((bytes.drop off).take n) else .error .truncated

/-- Skip padding to `align`, then read a `w`-byte unsigned value; returns
the value and the new offset. -/
def readFixed (bo : ByteOrder) (bytes : List Nat) (off w align : Nat) :
    Except CodecError (Nat × Nat) :=
  let off1 := off + padLen off align
  match readBytes bytes off1 w with
  | .ok bs => .ok (getUInt bo bs, off1 + w)
  | .error e => .error e

/-- Read a length-prefixed NUL-terminated UTF-8 string body (4-byte aligned
length field): the characters and the new offset. -/
def readStr (bo : ByteOrder) (bytes : List Nat) (off : Nat) :
    Except CodecError (List Char × Nat) :=
  let off1 := off + padLen off 4
  match readBytes bytes off1 4 with
  | .ok lb =>
    let len := getUInt bo lb
    match readBytes bytes (off1 + 4) len with
    | .ok sb =>
      match utf8Decode sb with
      | some cs =>
        match readBytes bytes (off1 + 4 + len) 1 with
        | .ok [0] => .ok (cs, off1 + 4 + len + 1)
        | .ok _ => .error .lengthMismatch
        | .error e => .error e
      | none => .error .invalidUtf8
    | .error e => .error e
  | .error e => .error e

/-- Read a 1-byte-length-prefixed NUL-terminated signature string: the raw
signature codes and the new offset. -/
def readSigBytes (bo : ByteOrder) (bytes : List Nat) (off : Nat) :
    Except CodecError (List Nat × Nat) :=
  match readBytes bytes off 1 with
  | .ok lb =>
    let len := getUInt bo lb
    match readBytes bytes (off + 1) len with
    | .ok sb =>
      match readBytes bytes (off + 1 + len) 1 with
      | .ok [0] => .ok (sb, off + 1 + len + 1)
      | .ok _ => .error .lengthMismatch
      | .error e => .error e
    | .error e => .error e
  | .error e => .error e

/-- Read an array header: the stored element-region byte length and the
offset of the first element (after padding to the element alignment). -/
def readArrayHead (bo : ByteOrder) (bytes : List Nat) (off align : Nat) :
    Except CodecError (Nat × Nat) :=
  let off1 := off + padLen off 4
  match readBytes bytes off1 4 with
  | .ok lb => .ok (getUInt bo lb, off1 + 4 + padLen (off1 + 4) align)
  | .error e => .error e

mutual

/-- Modelled from the spec's decode contract: read one value of type `t`
from `bytes` starting at `off`, skipping the deterministic padding implied
by the current offset, and return the value with the new offset.  `fuel`
bounds the recursion through variants and array elements. -/
def decTV (bo : ByteOrder) (bytes : List Nat) (fuel : Nat) (t : DType) (off : Nat) :
    Except CodecError (TypedValue × Nat) :=
  match t with
  | .byte =>
    match readBytes bytes off 1 with
    | .ok bs => .ok (.byte (getUInt bo bs), off + 1)
    | .error e => .error e
  | .boolean =>
    match readFixed bo bytes off 4 4 with
    | .ok (0, off1) => .ok (.boolean false, off1)
    | .ok (1, off1) => .ok (.boolean true, off1)
    | .ok _ => .error .lengthMismatch
    | .error e => .error e
  | .int16 =>
    match readFixed bo bytes off 2 2 with
    | .ok (n, off1) => .ok (.int16 (intFromWire 2 n), off1)
    | .error e => .error e
  | .uint16 =>
    match readFixed bo bytes off 2 2 with
    | .ok (n, off1) => .ok (.uint16 n, off1)
    | .error e => .error e
  | .int32 =>
    match readFixed bo bytes off 4 4 with
    | .ok (n, off1) => .ok (.int32 (intFromWire 4 n), off1)
    | .error e => .error e
  | .uint32 =>
    match readFixed bo bytes off 4 4 with
    | .ok (n, off1) => .ok (.uint32 n, off1)
    | .error e => .error e
  | .int64 =>
    match readFixed bo bytes off 8 8 with
    | .ok (n, off1) => .ok (.int64 (intFromWire 8 n), off1)
    | .error e => .error e
  | .uint64 =>
    match readFixed bo bytes off 8 8 with
    | .ok (n, off1) => .ok (.uint64 n, off1)
    | .error e => .error e
  | .double =>
    match readFixed bo bytes off 8 8 with
    | .ok (n, off1) => .ok (.double n, off1)
    | .error e => .error e
  | .string =>
    match readStr bo bytes off with
    | .ok (cs, off1) => .ok (.string (String.mk cs), off1)
    | .error e => .error e
  | .objectPath =>
    match readStr bo bytes off with
    | .ok (cs, off1) => .ok (.objectPath (String.mk cs), off1)
    | .error e => .error e
  | .signature =>
    match readSigBytes bo bytes off with
    | .ok (sb, off1) =>
      match parseSigAll (sb.length + 1) sb with
      | some ts => .ok (.signature ts, off1)
      | none => .error .malformedSignature
    | .error e => .error e
  | .array e =>
    match readArrayHead bo bytes off (alignOf e) with
    | .ok (len, off2) =>
      if off2 + len ≤ bytes.length then
        match decElems bo bytes fuel e off2 (off2 + len) with
        | .ok items => .ok (.array e items, off2 + len)
        | .error er => .error er
      else .error .truncated
    | .error er => .error er
  | .struct ts =>
    match decFields bo bytes fuel ts (off + padLen off 8) with
    | .ok (vs, off2) => .ok (.struct vs, off2)
    | .error e => .error e
  | .variant =>
    match readSigBytes bo bytes off with
    | .ok (sb, off1) =>
      match parseSigOne (sb.length + 1) sb with
      | some (t1, []) => decVariantPayload bo bytes fuel t1 off1
      | _ => .error .malformedSignature
    | .error e => .error e
  | .dictEntry tk tv =>
    match decTV bo bytes fuel tk (off + padLen off 8) with
    | .ok (k, off2) =>
      match decTV bo bytes fuel tv off2 with
      | .ok (v, off3) => .ok (.dictEntry k v, off3)
      | .error e => .error e
    | .error e => .error e
termination_by (fuel, sizeOf t, 1)

/-- Decode the payload of a variant whose inline signature parsed to `t1`;
one unit of fuel is spent entering the payload. -/
def decVariantPayload (bo : ByteOrder) (bytes : List Nat) (fuel : Nat) (t1 : DType)
    (off1 : Nat) : Except CodecError (TypedValue × Nat) :=
  match fuel with
  | 0 => .error .truncated
  | fuel1 + 1 =>
    match decTV bo bytes fuel1 t1 off1 with
    | .ok (v, off2) => .ok (.variant t1 v, off2)
    | .error e => .error e
termination_by (fuel, 0, 0)

/-- Decode array elements from `off` up to exactly `endOff`, using the
stored byte length (not an element count) to bound iteration. -/
def decElems (bo : ByteOrder) (bytes : List Nat) (fuel : Nat) (e : DType) (off endOff : Nat) :
    Except CodecError (List TypedValue) :=
  match fuel with
  | 0 => if off = endOff then .ok [] else .error .lengthMismatch
  | fuel1 + 1 =>
    if off = endOff then .ok []
    else
      match decTV bo bytes fuel1 e off with
      | .ok (v, off1) =>
        if endOff < off1 then .error .lengthMismatch
        else if off1 ≤ off then .error .lengthMismatch
        else
          match decElems bo bytes fuel1 e off1 endOff with
          | .ok vs => .ok (v :: vs)
          | .error er => .error er
      | .error er => .error er
termination_by (fuel, sizeOf e, 2)

/-- Decode the fields of a struct in sequence. -/
def decFields (bo : ByteOrder) (bytes : List Nat) (fuel : Nat) (ts : List DType) (off : Nat) :
    Except CodecError (List TypedValue × Nat) :=
  match ts with
  | [] => .ok ([], off)
  | t :: rest =>
    match decTV bo bytes fuel t off with
    | .ok (v, off1) =>
      match decFields bo bytes fuel rest off1 with
      | .ok (vs, off2) => .ok (v :: vs, off2)
      | .error e => .error e
    | .error e => .error e
termination_by (fuel, sizeOf ts, 1)

end

/-- Modelled from the spec's decode contract: `decode(bytes, signature,
offset)` returns the decoded value and the new offset. -/
def decode (bo : ByteOrder) (bytes : List Nat) (t : DType) (off : Nat) :
    Except CodecError (TypedValue × Nat) :=
  decTV bo bytes bytes.length t off

mutual

/-- Fuel needed by `parseSigOne` to parse the signature of `t`. -/
def sigFuel : DType → Nat
  | .array t => 1 + sigFuel t
  | .struct ts => 1 + sigInnerFuel ts
  | .dictEntry k v => 1 + max (sigFuel k) (sigFuel v)
  | _ => 1

/-- Fuel needed by `parseSigInner` to parse struct fields plus the closing
parenthesis. -/
def sigInnerFuel : List DType → Nat
  | [] => 1
  | t :: ts => 1 + max (sigFuel t) (sigInnerFuel ts)

end

/-- Fuel needed by `parseSigAll` to parse a type sequence. -/
def sigAllFuel : List DType → Nat
  | [] => 1
  | t :: ts => 1 + max (sigFuel t) (sigAllFuel ts)

mutual

/-- Fuel needed by `decTV` to decode the encoding of `v`: one unit per
variant payload and per array element. -/
def tvFuel : TypedValue → Nat
  | .array _ items => listFuel items
  | .struct fields => fieldsFuel fields
  | .variant _ v => 1 + tvFuel v
  | .dictEntry k v => max (tvFuel k) (tvFuel v)
  | _ => 0

/-- Fuel needed by `decElems` to decode an element list. -/
def listFuel : List TypedValue → Nat
  | [] => 0
  | v :: vs => 1 + max (tvFuel v) (listFuel vs)

/-- Fuel needed by `decFields` to decode struct fields. -/
def fieldsFuel : List TypedValue → Nat
  | [] => 0
  | v :: vs => max (tvFuel v) (fieldsFuel vs)

end

/-! ### Dispatcher / correlation engine

Modelled from spec sections 4.4, 4.5, 5 and 7.  Concurrency is modelled as
an arbitrary interleaving of atomic events processed by the dispatcher:
sends, received replies, per-call timeouts and cancellations, and close.
`awaitReply` for a serial observes the completion slot recorded for it. -/

/-- Modelled from the spec: a method-return or error message delivered by
the receive loop, bearing the reply-serial it answers, whether it is an
error-type reply (a RemoteError for the caller), and an opaque payload. -/
structure ReplyMsg where
  replySerial : Nat
  isError : Bool
  payload : Nat
deriving DecidableEq, Repr

/-- Modelled from the spec: the outcome a PendingCall resolves with. -/
inductive CallResult where
  | replied (m : ReplyMsg)
  | timedOut
  | cancelled
  | connectionClosed
deriving DecidableEq, Repr

/-- Modelled from the spec: the Dispatcher's shared state — the next-serial
counter (monotonically increasing), the pending-call table (serials of
in-flight calls), the completion slots of resolved calls, whether the
receive loop runs, and whether the transport has been released. -/
structure DispState where
  nextSerial : Nat
  pending : List Nat
  resolved : List (Nat × CallResult)
  loopRunning : Bool
  transportReleased : Bool
deriving DecidableEq, Repr

/-- A fresh connection after a successful handshake: no calls in flight,
receive loop running, serials from 1. -/
def initDisp : DispState :=
  ⟨1, [], [], true, false⟩

/-- Modelled from the spec: the atomic events the dispatcher processes. -/
inductive DispEvent where
  | send
  | recvReply (m : ReplyMsg)
  | timeout (serial : Nat)
  | cancel (serial : Nat)
  | close
deriving DecidableEq, Repr

/-- Modelled from the spec: one dispatcher step.  `send` allocates the next
serial and registers a PendingCall.  A received method-return/error with a
matching pending serial completes that PendingCall exactly once; a reply
whose serial is not pending (late after timeout/cancel, duplicate, or
unknown) is discarded silently.  Timeout expiry and cancellation remove the
PendingCall and record TimeoutError/Cancelled.  `close` runs its teardown
once: it stops the receive loop, resolves every outstanding PendingCall
with ConnectionClosed and releases the transport; a second close finds the
loop stopped and does nothing. -/
def dispStep (st : DispState) (ev : DispEvent) : DispState :=
  match ev with
  | .send =>
    if st.loopRunning then
      { st with nextSerial := st.nextSerial + 1, pending := st.nextSerial :: st.pending }
    else st
  | .recvReply m =>
    if st.loopRunning && st.pending.contains m.replySerial then
      { st with pending := st.pending.filter (fun x => x ≠ m.replySerial),
                resolved := (m.replySerial, .replied m) :: st.resolved }
    else st
  | .timeout s =>
    if st.loopRunning && st.pending.contains s then
      { st with pending := st.pending.filter (fun x => x ≠ s),
                resolved := (s, .timedOut) :: st.resolved }
    else st
  | .cancel s =>
    if st.loopRunning && st.pending.contains s then
      { st with pending := st.pending.filter (fun x => x ≠ s),
                resolved := (s, .cancelled) :: st.resolved }
    else st
  | .close =>
    if st.loopRunning then
      { st with pending := [],
                resolved := st.pending.map (fun s => (s, .connectionClosed)) ++ st.resolved,
                loopRunning := false,
                transportReleased := true }
    else st

/-- Run the dispatcher over an event trace from a fresh connection. -/
def dispRun (evs : List DispEvent) : DispState :=
  evs.foldl dispStep initDisp

/-- Modelled from the spec: what `awaitReply(serial)` resolves with once
its completion slot is filled — the most recently recorded outcome for
that serial, or none while the call is still outstanding. -/
def awaitReply (st : DispState) (s : Nat) : Option CallResult :=
  st.resolved.lookup s

/-! ### Connection handshake

Modelled from spec section 4.3: the state machine
Connecting -> AuthSent -> Authenticated -> Ready with terminal failure
state Rejected. -/

/-- Handshake states. -/
inductive HState where
  | connecting
  | authSent
  | authenticated
  | ready
  | rejected
deriving DecidableEq, Repr

/-- Handshake events: starting the exchange, an authentication response
line from the peer, and issuing the begin command. -/
inductive HEvent where
  | start
  | recvLine (l : String)
  | sendBegin
deriving DecidableEq, Repr

/-- What the handshake sends on a transition. -/
inductive HOut where
  | nulAndAuth
  | beginCmd
deriving DecidableEq, Repr

/-- Modelled from the spec: an explicit positive acknowledgment line — one
beginning with OK. -/
def isOkLine (l : String) : Bool :=
  match l.data with
  | 'O' :: 'K' :: _ => true
  | _ => false

/-- Modelled from the spec: one handshake transition, with what it sends.
On Connecting, start sends a NUL byte then the auth command.  On AuthSent,
a positive acknowledgment reaches Authenticated and anything else the
terminal Rejected state.  On Authenticated the begin command is sent and
the machine is Ready.  Every other combination, in particular everything
from Rejected, does nothing and sends nothing. -/
def hsStep : HState → HEvent → HState × List HOut
  | .connecting, .start => (.authSent, [.nulAndAuth])
  | .authSent, .recvLine l => if isOkLine l then (.authenticated, []) else (.rejected, [])
  | .authenticated, .sendBegin => (.ready, [.beginCmd])
  | st, _ => (st, [])

/-- Run the handshake machine over events, collecting everything sent. -/
def hsRun : HState → List HEvent → HState × List HOut
  | st, [] => (st, [])
  | st, e :: es =>
    let step := hsStep st e
    let rest := hsRun step.1 es
    (rest.1, step.2 ++ rest.2)

end DBus

/-! ## Theorems about cdbus.h -/

/-- Claim C1: preprocessing cdbus.h in a fresh translation unit (where the
guard macro CDBUS_H is not yet defined) selects exactly one of three
outcomes by platform: with __APPLE__ defined it includes the absolute
Homebrew path; otherwise with __linux__ defined it includes the system
header dbus/dbus.h in angle brackets; otherwise it raises the compile-time
error "Unsupported platform". -/
theorem cdbus_platform_selects_one_of_three (env : List String)
    (hG : isDefined env "CDBUS_H" = false) :
    cdbusOutcome env =
      if isDefined env "__APPLE__" then .ok [.quoted homebrewPath]
      else if isDefined env "__linux__" then .ok [.angled "dbus/dbus.h"]
      else .error "Unsupported platform" := by
  rcases hA : isDefined env "__APPLE__" <;> rcases hL : isDefined env "__linux__" <;>
    simp [cdbusOutcome, preprocessCdbus, cdbusLines, ppExec, isDefined, hA, hL, hG,
      Except.map]

/-- Witness for C1: on a Linux-only environment the header includes the
system dbus header. -/
theorem cdbus_platform_selects_one_of_three_witness :
    isDefined ["__linux__"] "CDBUS_H" = false ∧
      cdbusOutcome ["__linux__"] = .ok [.angled "dbus/dbus.h"] :=
  ⟨by decide, by
    simpa using cdbus_platform_selects_one_of_three ["__linux__"] (by decide)⟩

/-- Claim C2: the header is exactly 14 lines long (newline count, the
convention under which the spec calls it a 14-line file), and every line of
it is a preprocessor directive, a comment, or blank — no C declarations,
statements, data structures or control flow of its own. -/
theorem cdbus_header_fourteen_lines_no_code :
    newlineCount cdbusSource = 14 ∧
      ∀ l ∈ splitLines cdbusSource, lineKind l ≠ LineKind.code := by
  constructor
  · rfl
  · decide

/-- Claim C9: including cdbus.h twice in one translation unit has the same
effect as including it once — the CDBUS_H include guard makes the second
inclusion a no-op — whatever macros the environment predefines. -/
theorem cdbus_include_guard_idempotent (env : List String) :
    ppExec (cdbusLines ++ cdbusLines) env [] [] = ppExec cdbusLines env [] [] := by
  rcases hG : isDefined env "CDBUS_H" <;>
    rcases hA : isDefined env "__APPLE__" <;> rcases hL : isDefined env "__linux__" <;>
    simp [cdbusLines, ppExec, isDefined, hA, hL, hG]

/-- Claim C10: when both __APPLE__ and __linux__ are defined, the Apple
branch wins: the header includes only the Homebrew path, and the system
dbus/dbus.h is not among the emitted includes. -/
theorem cdbus_apple_branch_precedence (env : List String)
    (hG : isDefined env "CDBUS_H" = false)
    (hA : isDefined env "__APPLE__" = true)
    (hL : isDefined env "__linux__" = true) :
    cdbusOutcome env = .ok [.quoted homebrewPath] ∧
      ∀ incs, cdbusOutcome env = .ok incs → Include.angled "dbus/dbus.h" ∉ incs := by
  have h1 : cdbusOutcome env = .ok [.quoted homebrewPath] := by
    simp [cdbusOutcome, preprocessCdbus, cdbusLines, ppExec, isDefined, hA, hL, hG,
      Except.map]
  refine ⟨h1, ?_⟩
  intro incs h2
  rw [h1] at h2
  simp only [Except.ok.injEq] at h2
  subst h2
  decide

/-- Witness for C10: with both platform macros defined, only the Homebrew
include is emitted. -/
theorem cdbus_apple_branch_precedence_witness :
    cdbusOutcome ["__APPLE__", "__linux__"] = .ok [.quoted homebrewPath] ∧
      ∀ incs, cdbusOutcome ["__APPLE__", "__linux__"] = .ok incs →
        Include.angled "dbus/dbus.h" ∉ incs :=
  cdbus_apple_branch_precedence ["__APPLE__", "__linux__"]
    (by decide) (by decide) (by decide)

/-! ## Lemmas about the wire codec -/

namespace DBus

theorem natLE_length (w v : Nat) : (natLE w v).length = w := by
  induction w generalizing v with
  | zero => rfl
  | succ w ih => simp [natLE, ih]

theorem natFromLE_natLE (w v : Nat) (h : v < 256 ^ w) : natFromLE (natLE w v) = v := by
  induction w generalizing v with
  | zero => simp at h; simp [natLE, natFromLE, h]
  | succ w ih =>
    have hdiv : v / 256 < 256 ^ w := by
      rw [Nat.div_lt_iff_lt_mul (by norm_num)]
      calc v < 256 ^ (w + 1) := h
      _ = 256 ^ w * 256 := by rw [Nat.pow_succ]
    simp [natLE, natFromLE, ih _ hdiv]
    omega

theorem putUInt_length (bo : ByteOrder) (w v : Nat) : (putUInt bo w v).length = w := by
  cases bo <;> simp [putUInt, natLE_length]

theorem getUInt_putUInt (bo : ByteOrder) (w v : Nat) (h : v < 256 ^ w) :
    getUInt bo (putUInt bo w v) = v := by
  cases bo <;> simp [putUInt, getUInt, natFromLE_natLE w v h]

theorem padBytes_length (off a : Nat) : (padBytes off a).length = padLen off a := by
  simp [padBytes]

theorem padLen_lt (off a : Nat) (h : 0 < a) : padLen off a < a :=
  Nat.mod_lt _ h

theorem alignOf_pos (t : DType) : 0 < alignOf t := by
  cases t <;> simp [alignOf]

theorem alignOf_le_eight (t : DType) : alignOf t ≤ 8 := by
  cases t <;> simp [alignOf]

theorem readBytes_middle (bytes pre mid post : List Nat) (n : Nat)
    (hb : bytes = pre ++ (mid ++ post)) (hn : n ≤ mid.length) :
    readBytes bytes pre.length n = .ok (mid.take n) := by
  subst hb
  have hlen : pre.length + n ≤ (pre ++ (mid ++ post)).length := by
    simp
    omega
  simp only [readBytes, if_pos hlen]
  rw [List.drop_left]
  rw [List.take_append_of_le_length hn]

theorem readBytes_exact (bytes pre mid post : List Nat) (n : Nat)
    (hb : bytes = pre ++ (mid ++ post)) (hn : mid.length = n) :
    readBytes bytes pre.length n = .ok mid := by
  rw [readBytes_middle bytes pre mid post n hb (le_of_eq hn.symm)]
  rw [← hn, List.take_length]

theorem intFromWire_intToWire_two (i : Int) (h1 : -32768 ≤ i) (h2 : i < 32768) :
    intFromWire 2 (intToWire 2 i) = i := by
  simp only [intToWire, intFromWire]
  norm_num
  split <;> omega

theorem intToWire_lt_two (i : Int) : intToWire 2 i < 256 ^ 2 := by
  simp only [intToWire]
  norm_num
  omega

theorem intFromWire_intToWire_four (i : Int) (h1 : -2147483648 ≤ i) (h2 : i < 2147483648) :
    intFromWire 4 (intToWire 4 i) = i := by
  simp only [intToWire, intFromWire]
  norm_num
  split <;> omega

theorem intToWire_lt_four (i : Int) : intToWire 4 i < 256 ^ 4 := by
  simp only [intToWire]
  norm_num
  omega

theorem intFromWire_intToWire_eight (i : Int) (h1 : -9223372036854775808 ≤ i)
    (h2 : i < 9223372036854775808) : intFromWire 8 (intToWire 8 i) = i := by
  simp only [intToWire, intFromWire]
  norm_num
  split <;> omega

theorem intToWire_lt_eight (i : Int) : intToWire 8 i < 256 ^ 8 := by
  simp only [intToWire]
  norm_num
  omega

theorem char_toNat_lt (c : Char) : c.toNat < 1114112 := by
  have := c.valid
  rcases this with h | ⟨h1, h2⟩
  · exact Nat.lt_trans (by exact_mod_cast h) (by norm_num)
  · exact (by exact_mod_cast h2)

theorem utf8DecStep_encChar (c : Char) (bs : List Nat) :
    utf8DecStep (utf8EncodeChar c.toNat ++ bs) = some (c.toNat, bs) := by
  have hlt : c.toNat < 1114112 := char_toNat_lt c
  set n := c.toNat with hn
  by_cases h1 : n < 128
  · simp only [utf8EncodeChar, if_pos h1, List.cons_append, List.nil_append, utf8DecStep,
      if_pos h1]
  · by_cases h2 : n < 2048
    · have e1 : ¬ (192 + n / 64 < 128) := by omega
      have e2 : ¬ (192 + n / 64 < 192) := by omega
      have e3 : 192 + n / 64 < 224 := by omega
      have e4 : 128 ≤ 128 + n % 64 ∧ 128 + n % 64 < 192 := by omega
      simp only [utf8EncodeChar, if_neg h1, if_pos h2, List.cons_append, List.nil_append,
        utf8DecStep, if_neg e1, if_neg e2, if_pos e3, if_pos e4]
      congr 1
      congr 1
      omega
    · by_cases h3 : n < 65536
      · have e1 : ¬ (224 + n / 4096 < 128) := by omega
        have e2 : ¬ (224 + n / 4096 < 192) := by omega
        have e3 : ¬ (224 + n / 4096 < 224) := by omega
        have e4 : 224 + n / 4096 < 240 := by omega
        have e5 : (128 ≤ 128 + n / 64 % 64 ∧ 128 + n / 64 % 64 < 192) ∧
            (128 ≤ 128 + n % 64 ∧ 128 + n % 64 < 192) := by omega
        simp only [utf8EncodeChar, if_neg h1, if_neg h2, if_pos h3, List.cons_append,
          List.nil_append, utf8DecStep, if_neg e1, if_neg e2, if_neg e3, if_pos e4, if_pos e5]
        congr 1
        congr 1
        omega
      · have e1 : ¬ (240 + n / 262144 < 128) := by omega
        have e2 : ¬ (240 + n / 262144 < 192) := by omega
        have e3 : ¬ (240 + n / 262144 < 224) := by omega
        have e4 : ¬ (240 + n / 262144 < 240) := by omega
        have e5 : 240 + n / 262144 < 248 := by omega
        have e6 : ((128 ≤ 128 + n / 4096 % 64 ∧ 128 + n / 4096 % 64 < 192) ∧
            (128 ≤ 128 + n / 64 % 64 ∧ 128 + n / 64 % 64 < 192)) ∧
            (128 ≤ 128 + n % 64 ∧ 128 + n % 64 < 192) := by omega
        simp only [utf8EncodeChar, if_neg h1, if_neg h2, if_neg h3, List.cons_append,
          List.nil_append, utf8DecStep, if_neg e1, if_neg e2, if_neg e3, if_neg e4, if_pos e5,
          if_pos e6]
        congr 1
        congr 1
        omega

theorem utf8EncodeChar_cons (n : Nat) : ∃ b0 tl, utf8EncodeChar n = b0 :: tl := by
  unfold utf8EncodeChar
  split
  · exact ⟨_, _, rfl⟩
  · split
    · exact ⟨_, _, rfl⟩
    · split
      · exact ⟨_, _, rfl⟩
      · exact ⟨_, _, rfl⟩

theorem utf8DecodeAux_encode (cs : List Char) (fuel : Nat) (h : cs.length ≤ fuel) :
    utf8DecodeAux fuel (utf8Encode cs) = some cs := by
  induction cs generalizing fuel with
  | nil => cases fuel <;> rfl
  | cons c cs ih =>
    obtain ⟨fuel, rfl⟩ : ∃ f, fuel = f + 1 := by
      cases fuel
      · simp at h
      · exact ⟨_, rfl⟩
    obtain ⟨b0, tl, hcons⟩ := utf8EncodeChar_cons c.toNat
    have hstep := utf8DecStep_encChar c (utf8Encode cs)
    have hform : utf8Encode (c :: cs) = b0 :: (tl ++ utf8Encode cs) := by
      show utf8EncodeChar c.toNat ++ utf8Encode cs = _
      rw [hcons]
      simp
    rw [hform]
    rw [hcons] at hstep
    simp only [List.cons_append] at hstep
    simp only [utf8DecodeAux, hstep]
    rw [ih fuel (by simpa using h), Char.ofNat_toNat]

theorem utf8Encode_length_ge (cs : List Char) : cs.length ≤ (utf8Encode cs).length := by
  induction cs with
  | nil => simp [utf8Encode]
  | cons c cs ih =>
    obtain ⟨b0, tl, hcons⟩ := utf8EncodeChar_cons c.toNat
    simp only [utf8Encode, hcons, List.length_append, List.length_cons]
    omega

theorem utf8Decode_utf8Encode (cs : List Char) : utf8Decode (utf8Encode cs) = some cs :=
  utf8DecodeAux_encode cs _ (utf8Encode_length_ge cs)

theorem sigBytes_cons (t : DType) : ∃ c cs, sigBytes t = c :: cs ∧ c ≠ 41 := by
  cases t <;> exact ⟨_, _, rfl, by decide⟩

theorem sigBytes_length_pos (t : DType) : 1 ≤ (sigBytes t).length := by
  obtain ⟨c, cs, h, _⟩ := sigBytes_cons t
  simp [h]

theorem sigFuel_pos (t : DType) : 1 ≤ sigFuel t := by
  cases t <;> simp [sigFuel]

mutual

theorem parseSigOne_rt : ∀ (t : DType) (rest : List Nat) (fuel : Nat),
    sigFuel t ≤ fuel → parseSigOne fuel (sigBytes t ++ rest) = some (t, rest)
  | t, rest, fuel, h => by
    obtain ⟨f, rfl⟩ : ∃ f, fuel = f + 1 := by
      cases fuel
      · exact absurd (Nat.le_trans (sigFuel_pos t) h) (by omega)
      · exact ⟨_, rfl⟩
    cases t with
    | byte => simp [sigBytes, parseSigOne]
    | boolean => simp [sigBytes, parseSigOne]
    | int16 => simp [sigBytes, parseSigOne]
    | uint16 => simp [sigBytes, parseSigOne]
    | int32 => simp [sigBytes, parseSigOne]
    | uint32 => simp [sigBytes, parseSigOne]
    | int64 => simp [sigBytes, parseSigOne]
    | uint64 => simp [sigBytes, parseSigOne]
    | double => simp [sigBytes, parseSigOne]
    | string => simp [sigBytes, parseSigOne]
    | objectPath => simp [sigBytes, parseSigOne]
    | signature => simp [sigBytes, parseSigOne]
    | variant => simp [sigBytes, parseSigOne]
    | array t1 =>
      have h1 : sigFuel t1 ≤ f := by
        simp only [sigFuel] at h
        omega
      simp [sigBytes, parseSigOne, parseSigOne_rt t1 rest f h1]
    | struct ts =>
      have h1 : sigInnerFuel ts ≤ f := by
        simp only [sigFuel] at h
        omega
      have hin := parseSigInner_rt ts rest f h1
      simp [sigBytes, parseSigOne, List.append_assoc, hin]
    | dictEntry k v =>
      have h1 : sigFuel k ≤ f := by
        simp only [sigFuel] at h
        omega
      have h2 : sigFuel v ≤ f := by
        simp only [sigFuel] at h
        omega
      have hk := parseSigOne_rt k (sigBytes v ++ (125 :: rest)) f h1
      have hv := parseSigOne_rt v (125 :: rest) f h2
      have hform : sigBytes (.dictEntry k v) ++ rest =
          123 :: (sigBytes k ++ (sigBytes v ++ (125 :: rest))) := by
        simp [sigBytes]
      rw [hform]
      simp [parseSigOne, hk, hv]

theorem parseSigInner_rt : ∀ (ts : List DType) (rest : List Nat) (fuel : Nat),
    sigInnerFuel ts ≤ fuel →
      parseSigInner fuel (sigListBytes ts ++ (41 :: rest)) = some (ts, rest)
  | [], rest, fuel, h => by
    obtain ⟨f, rfl⟩ : ∃ f, fuel = f + 1 := by
      cases fuel
      · simp [sigInnerFuel] at h
      · exact ⟨_, rfl⟩
    simp [sigListBytes, parseSigInner]
  | t :: ts, rest, fuel, h => by
    obtain ⟨f, rfl⟩ : ∃ f, fuel = f + 1 := by
      cases fuel
      · simp [sigInnerFuel] at h
      · exact ⟨_, rfl⟩
    have h1 : sigFuel t ≤ f := by
      simp only [sigInnerFuel] at h
      omega
    have h2 : sigInnerFuel ts ≤ f := by
      simp only [sigInnerFuel] at h
      omega
    obtain ⟨c, cs, hc, hcne⟩ := sigBytes_cons t
    have hone := parseSigOne_rt t (sigListBytes ts ++ (41 :: rest)) f h1
    have hin := parseSigInner_rt ts rest f h2
    rw [hc] at hone
    have hform : sigListBytes (t :: ts) ++ (41 :: rest) =
        c :: (cs ++ (sigListBytes ts ++ (41 :: rest))) := by
      simp [sigListBytes, hc]
    rw [hform]
    simp only [parseSigInner, if_neg hcne]
    simp only [List.cons_append] at hone
    rw [hone]
    simp [hin]

end

theorem parseSigAll_rt : ∀ (ts : List DType) (fuel : Nat),
    sigAllFuel ts ≤ fuel → parseSigAll fuel (sigListBytes ts) = some ts
  | [], fuel, h => by
    obtain ⟨f, rfl⟩ : ∃ f, fuel = f + 1 := by
      cases fuel
      · simp [sigAllFuel] at h
      · exact ⟨_, rfl⟩
    rfl
  | t :: ts, fuel, h => by
    obtain ⟨f, rfl⟩ : ∃ f, fuel = f + 1 := by
      cases fuel
      · simp [sigAllFuel] at h
      · exact ⟨_, rfl⟩
    have h1 : sigFuel t ≤ f + 1 := by
      simp only [sigAllFuel] at h
      omega
    have h2 : sigAllFuel ts ≤ f := by
      simp only [sigAllFuel] at h
      omega
    obtain ⟨c, cs, hc, _⟩ := sigBytes_cons t
    have hone := parseSigOne_rt t (sigListBytes ts) (f + 1) h1
    have hrec := parseSigAll_rt ts f h2
    have hform : sigListBytes (t :: ts) = c :: (cs ++ sigListBytes ts) := by
      simp [sigListBytes, hc]
    rw [hform]
    rw [hc] at hone
    simp only [List.cons_append] at hone
    simp only [parseSigAll, hone]
    have hlen3 : (sigListBytes ts).length < cs.length + (sigListBytes ts).length + 1 := by
      omega
    simp only [List.length_cons, List.length_append, if_pos hlen3, hrec]

mutual

theorem sigFuel_le_length : ∀ (t : DType), sigFuel t ≤ (sigBytes t).length
  | .array t1 => by
    have := sigFuel_le_length t1
    simp [sigFuel, sigBytes]
    omega
  | .struct ts => by
    have := sigInnerFuel_le_length ts
    simp [sigFuel, sigBytes]
    omega
  | .dictEntry k v => by
    have hk := sigFuel_le_length k
    have hv := sigFuel_le_length v
    have hkp := sigBytes_length_pos k
    have hvp := sigBytes_length_pos v
    simp [sigFuel, sigBytes]
    omega
  | .byte => by simp [sigFuel, sigBytes]
  | .boolean => by simp [sigFuel, sigBytes]
  | .int16 => by simp [sigFuel, sigBytes]
  | .uint16 => by simp [sigFuel, sigBytes]
  | .int32 => by simp [sigFuel, sigBytes]
  | .uint32 => by simp [sigFuel, sigBytes]
  | .int64 => by simp [sigFuel, sigBytes]
  | .uint64 => by simp [sigFuel, sigBytes]
  | .double => by simp [sigFuel, sigBytes]
  | .string => by simp [sigFuel, sigBytes]
  | .objectPath => by simp [sigFuel, sigBytes]
  | .signature => by simp [sigFuel, sigBytes]
  | .variant => by simp [sigFuel, sigBytes]

theorem sigInnerFuel_le_length : ∀ (ts : List DType),
    sigInnerFuel ts ≤ (sigListBytes ts).length + 1
  | [] => by simp [sigInnerFuel, sigListBytes]
  | t :: ts => by
    have h1 := sigFuel_le_length t
    have h2 := sigInnerFuel_le_length ts
    have h3 := sigBytes_length_pos t
    simp [sigInnerFuel, sigListBytes]
    omega

end

theorem sigAllFuel_le_length : ∀ (ts : List DType),
    sigAllFuel ts ≤ (sigListBytes ts).length + 1
  | [] => by simp [sigAllFuel, sigListBytes]
  | t :: ts => by
    have h1 := sigFuel_le_length t
    have h2 := sigAllFuel_le_length ts
    have h3 := sigBytes_length_pos t
    simp [sigAllFuel, sigListBytes]
    omega

theorem dtypeBeq_eq (a b : DType) (h : dtypeBeq a b = true) : a = b := by
  have hs : sigBytes a = sigBytes b := by
    simpa [dtypeBeq] using h
  have ha := parseSigOne_rt a [] (max (sigFuel a) (sigFuel b)) (le_max_left _ _)
  have hb := parseSigOne_rt b [] (max (sigFuel a) (sigFuel b)) (le_max_right _ _)
  rw [hs] at ha
  rw [ha] at hb
  simpa using hb


theorem getUInt_single (bo : ByteOrder) (b : Nat) : getUInt bo [b] = b := by
  cases bo <;> simp [getUInt, natFromLE]

theorem readFixed_enc (bo : ByteOrder) (pre post : List Nat) (w align v : Nat)
    (hv : v < 256 ^ w) :
    readFixed bo (pre ++ (padBytes pre.length align ++ (putUInt bo w v ++ post)))
      pre.length w align
      = .ok (v, pre.length + padLen pre.length align + w) := by
  have hread := readBytes_exact
    (pre ++ (padBytes pre.length align ++ (putUInt bo w v ++ post)))
    (pre ++ padBytes pre.length align) (putUInt bo w v) post w
    (by simp) (putUInt_length bo w v)
  have hlen : (pre ++ padBytes pre.length align).length
      = pre.length + padLen pre.length align := by
    simp [padBytes_length]
  rw [hlen] at hread
  simp only [readFixed, hread, getUInt_putUInt bo w v hv]

theorem decTV_enc_byte (bo : ByteOrder) (fuel n : Nat) (pre post : List Nat)
    (hv : hasType (.byte n) .byte = true) :
    decTV bo (pre ++ (encTV bo pre.length (.byte n) ++ post)) fuel .byte pre.length
      = .ok (.byte n, pre.length + (encTV bo pre.length (.byte n)).length) := by
  have hn : n < 256 := by simpa [hasType] using hv
  have hread := readBytes_exact (pre ++ (encTV bo pre.length (.byte n) ++ post)) pre
    [n % 256] post 1 (by simp [encTV]) (by simp)
  simp only [decTV, hread, getUInt_single]
  simp [encTV, Nat.mod_eq_of_lt hn]

theorem decTV_enc_boolean (bo : ByteOrder) (fuel : Nat) (b : Bool) (pre post : List Nat) :
    decTV bo (pre ++ (encTV bo pre.length (.boolean b) ++ post)) fuel .boolean pre.length
      = .ok (.boolean b, pre.length + (encTV bo pre.length (.boolean b)).length) := by
  have hform : encTV bo pre.length (.boolean b) ++ post =
      padBytes pre.length 4 ++ (putUInt bo 4 (cond b 1 0) ++ post) := by
    simp [encTV]
  rw [hform]
  have hfix := readFixed_enc bo pre post 4 4 (cond b 1 0) (by cases b <;> norm_num)
  simp only [decTV, hfix]
  cases b <;> simp [encTV, padBytes_length, putUInt_length] <;> omega

theorem decTV_enc_uint32 (bo : ByteOrder) (fuel n : Nat) (pre post : List Nat)
    (hv : hasType (.uint32 n) .uint32 = true) :
    decTV bo (pre ++ (encTV bo pre.length (.uint32 n) ++ post)) fuel .uint32 pre.length
      = .ok (.uint32 n, pre.length + (encTV bo pre.length (.uint32 n)).length) := by
  have hn : n < 256 ^ 4 := by
    have := hv
    simp [hasType] at this
    norm_num
    omega
  have hform : encTV bo pre.length (.uint32 n) ++ post =
      padBytes pre.length 4 ++ (putUInt bo 4 n ++ post) := by
    simp [encTV]
  rw [hform]
  have hfix := readFixed_enc bo pre post 4 4 n hn
  simp only [decTV, hfix]
  simp [encTV, padBytes_length, putUInt_length]
  omega

theorem decTV_enc_int16 (bo : ByteOrder) (fuel : Nat) (i : Int) (pre post : List Nat)
    (hv : hasType (.int16 i) .int16 = true) :
    decTV bo (pre ++ (encTV bo pre.length (.int16 i) ++ post)) fuel .int16 pre.length
      = .ok (.int16 i, pre.length + (encTV bo pre.length (.int16 i)).length) := by
  have hr : -32768 ≤ i ∧ i < 32768 := by
    have := hv
    simp [hasType] at this
    omega
  have hform : encTV bo pre.length (.int16 i) ++ post =
      padBytes pre.length 2 ++ (putUInt bo 2 (intToWire 2 i) ++ post) := by
    simp [encTV]
  rw [hform]
  have hfix := readFixed_enc bo pre post 2 2 (intToWire 2 i) (intToWire_lt_two i)
  simp only [decTV, hfix, intFromWire_intToWire_two i hr.1 hr.2]
  simp [encTV, padBytes_length, putUInt_length]
  omega


theorem string_mk_data (s : String) : String.mk s.data = s := rfl

theorem putUInt_one (bo : ByteOrder) (v : Nat) : putUInt bo 1 v = [v % 256] := by
  cases bo <;> simp [putUInt, natLE]

theorem readStr_enc (bo : ByteOrder) (pre post : List Nat) (cs : List Char)
    (h : (utf8Encode cs).length < 4294967296) :
    readStr bo (pre ++ (padBytes pre.length 4 ++ (putUInt bo 4 (utf8Encode cs).length ++
        (utf8Encode cs ++ ([0] ++ post))))) pre.length
      = .ok (cs, pre.length + padLen pre.length 4 + 4 + (utf8Encode cs).length + 1) := by
  set bytes := pre ++ (padBytes pre.length 4 ++ (putUInt bo 4 (utf8Encode cs).length ++
      (utf8Encode cs ++ ([0] ++ post)))) with hbytes
  have hr1 := readBytes_exact bytes (pre ++ padBytes pre.length 4)
    (putUInt bo 4 (utf8Encode cs).length) (utf8Encode cs ++ ([0] ++ post)) 4
    (by rw [hbytes]; simp) (putUInt_length bo 4 _)
  have hl1 : (pre ++ padBytes pre.length 4).length = pre.length + padLen pre.length 4 := by
    simp [padBytes_length]
  rw [hl1] at hr1
  have hr2 := readBytes_exact bytes
    (pre ++ padBytes pre.length 4 ++ putUInt bo 4 (utf8Encode cs).length)
    (utf8Encode cs) ([0] ++ post) (utf8Encode cs).length
    (by rw [hbytes]; simp) rfl
  have hl2 : (pre ++ padBytes pre.length 4 ++ putUInt bo 4 (utf8Encode cs).length).length
      = pre.length + padLen pre.length 4 + 4 := by
    simp [padBytes_length, putUInt_length]
    omega
  rw [hl2] at hr2
  have hr3 := readBytes_exact bytes
    (pre ++ padBytes pre.length 4 ++ putUInt bo 4 (utf8Encode cs).length ++ utf8Encode cs)
    [0] post 1 (by rw [hbytes]; simp) rfl
  have hl3 : (pre ++ padBytes pre.length 4 ++ putUInt bo 4 (utf8Encode cs).length ++
      utf8Encode cs).length = pre.length + padLen pre.length 4 + 4 + (utf8Encode cs).length := by
    simp [padBytes_length, putUInt_length]
    omega
  rw [hl3] at hr3
  have hval : getUInt bo (putUInt bo 4 (utf8Encode cs).length) = (utf8Encode cs).length := by
    apply getUInt_putUInt
    norm_num
    omega
  simp only [readStr, hr1, hval, hr2, utf8Decode_utf8Encode, hr3]

theorem readSigBytes_enc (bo : ByteOrder) (pre post sb : List Nat) (h : sb.length < 256) :
    readSigBytes bo (pre ++ (putUInt bo 1 sb.length ++ (sb ++ ([0] ++ post)))) pre.length
      = .ok (sb, pre.length + 1 + sb.length + 1) := by
  set bytes := pre ++ (putUInt bo 1 sb.length ++ (sb ++ ([0] ++ post))) with hbytes
  have hr1 := readBytes_exact bytes pre (putUInt bo 1 sb.length) (sb ++ ([0] ++ post)) 1
    (by rw [hbytes]) (putUInt_length bo 1 _)
  have hr2 := readBytes_exact bytes (pre ++ putUInt bo 1 sb.length) sb ([0] ++ post)
    sb.length (by rw [hbytes]; simp) rfl
  have hl2 : (pre ++ putUInt bo 1 sb.length).length = pre.length + 1 := by
    simp [putUInt_length]
  rw [hl2] at hr2
  have hr3 := readBytes_exact bytes (pre ++ putUInt bo 1 sb.length ++ sb) [0] post 1
    (by rw [hbytes]; simp) rfl
  have hl3 : (pre ++ putUInt bo 1 sb.length ++ sb).length = pre.length + 1 + sb.length := by
    simp [putUInt_length]
    omega
  rw [hl3] at hr3
  have hval : getUInt bo (putUInt bo 1 sb.length) = sb.length := by
    apply getUInt_putUInt
    norm_num
    omega
  simp only [readSigBytes, hr1, hval, hr2, hr3]

theorem decTV_enc_string (bo : ByteOrder) (fuel : Nat) (s : String) (pre post : List Nat)
    (hv : hasType (.string s) .string = true) :
    decTV bo (pre ++ (encTV bo pre.length (.string s) ++ post)) fuel .string pre.length
      = .ok (.string s, pre.length + (encTV bo pre.length (.string s)).length) := by
  have hlen : (utf8Encode s.data).length < 4294967296 := by
    simpa [hasType] using hv
  have hform : encTV bo pre.length (.string s) ++ post =
      padBytes pre.length 4 ++ (putUInt bo 4 (utf8Encode s.data).length ++
        (utf8Encode s.data ++ ([0] ++ post))) := by
    simp [encTV]
  rw [hform]
  have hstr := readStr_enc bo pre post s.data hlen
  simp only [decTV, hstr, string_mk_data]
  simp [encTV, padBytes_length, putUInt_length]
  omega

theorem decTV_enc_signature (bo : ByteOrder) (fuel : Nat) (ts : List DType) (pre post : List Nat)
    (hv : hasType (.signature ts) .signature = true) :
    decTV bo (pre ++ (encTV bo pre.length (.signature ts) ++ post)) fuel .signature pre.length
      = .ok (.signature ts, pre.length + (encTV bo pre.length (.signature ts)).length) := by
  have hlen : (sigListBytes ts).length < 256 := by
    have := hv
    simp [hasType] at this
    exact this.2
  have hform : encTV bo pre.length (.signature ts) ++ post =
      putUInt bo 1 (sigListBytes ts).length ++ (sigListBytes ts ++ ([0] ++ post)) := by
    simp [encTV]
  rw [hform]
  have hsig := readSigBytes_enc bo pre post (sigListBytes ts) hlen
  have hparse := parseSigAll_rt ts ((sigListBytes ts).length + 1) (sigAllFuel_le_length ts)
  simp only [decTV, hsig, hparse]
  simp [encTV, putUInt_length]
  omega


theorem hasType_array_inv (e : DType) (items : List TypedValue) (t : DType)
    (hv : hasType (.array e items) t = true) (ht : validType t = true) :
    t = .array e ∧ allHasType items e = true ∧ validType e = true ∧
      encUBList items < 4294967296 := by
  cases t <;> simp [hasType] at hv
  case array e2 =>
    obtain ⟨⟨h1, h2⟩, h3⟩ := hv
    obtain rfl : e = e2 := dtypeBeq_eq e e2 h1
    refine ⟨rfl, h2, by simpa [validType] using ht, by omega⟩

theorem hasType_struct_inv (vs : List TypedValue) (t : DType)
    (hv : hasType (.struct vs) t = true) (ht : validType t = true) :
    ∃ ts, t = .struct ts ∧ hasTypes vs ts = true ∧ validTypes ts = true ∧ ts ≠ [] := by
  cases t <;> simp [hasType] at hv
  case struct ts =>
    refine ⟨ts, rfl, hv, ?_, ?_⟩ <;> simp [validType] at ht
    · exact ht.2
    · intro hnil
      subst hnil
      simp at ht

theorem hasType_variant_inv (t1 : DType) (pv : TypedValue) (t : DType)
    (hv : hasType (.variant t1 pv) t = true) (ht : validType t = true) :
    t = .variant ∧ validType t1 = true ∧ (sigBytes t1).length < 256 ∧
      hasType pv t1 = true := by
  cases t <;> simp [hasType] at hv
  exact ⟨rfl, hv.1.1, hv.1.2, hv.2⟩

theorem hasType_dict_inv (k v : TypedValue) (t : DType)
    (hv : hasType (.dictEntry k v) t = true) (ht : validType t = true) :
    ∃ tk tv, t = .dictEntry tk tv ∧ hasType k tk = true ∧ hasType v tv = true ∧
      validType tk = true ∧ validType tv = true := by
  cases t <;> simp [hasType] at hv
  case dictEntry tk tv2 =>
    simp [validType] at ht
    exact ⟨tk, tv2, rfl, hv.1, hv.2, ht.1.2, ht.2⟩


mutual

theorem encLen_le_encUB : ∀ (bo : ByteOrder) (off : Nat) (v : TypedValue),
    (encTV bo off v).length ≤ encUB v
  | bo, off, .byte n => by simp [encTV, encUB]
  | bo, off, .boolean b => by
    have := padLen_lt off 4 (by norm_num)
    simp [encTV, encUB, padBytes_length, putUInt_length]
    omega
  | bo, off, .int16 i => by
    have := padLen_lt off 2 (by norm_num)
    simp [encTV, encUB, padBytes_length, putUInt_length]
    omega
  | bo, off, .uint16 n => by
    have := padLen_lt off 2 (by norm_num)
    simp [encTV, encUB, padBytes_length, putUInt_length]
    omega
  | bo, off, .int32 i => by
    have := padLen_lt off 4 (by norm_num)
    simp [encTV, encUB, padBytes_length, putUInt_length]
    omega
  | bo, off, .uint32 n => by
    have := padLen_lt off 4 (by norm_num)
    simp [encTV, encUB, padBytes_length, putUInt_length]
    omega
  | bo, off, .int64 i => by
    have := padLen_lt off 8 (by norm_num)
    simp [encTV, encUB, padBytes_length, putUInt_length]
    omega
  | bo, off, .uint64 n => by
    have := padLen_lt off 8 (by norm_num)
    simp [encTV, encUB, padBytes_length, putUInt_length]
    omega
  | bo, off, .double bits => by
    have := padLen_lt off 8 (by norm_num)
    simp [encTV, encUB, padBytes_length, putUInt_length]
    omega
  | bo, off, .string s => by
    have := padLen_lt off 4 (by norm_num)
    simp [encTV, encUB, padBytes_length, putUInt_length]
    omega
  | bo, off, .objectPath s => by
    have := padLen_lt off 4 (by norm_num)
    simp [encTV, encUB, padBytes_length, putUInt_length]
    omega
  | bo, off, .signature ts => by
    simp [encTV, encUB, putUInt_length]
    omega
  | bo, off, .array e items => by
    have h1 := padLen_lt off 4 (by norm_num)
    have h2 := padLen_lt (off + padLen off 4 + 4) (alignOf e) (alignOf_pos e)
    have h3 := alignOf_le_eight e
    have h4 := encSeqLen_le_encUBList bo
      (off + padLen off 4 + 4 + padLen (off + padLen off 4 + 4) (alignOf e)) items
    simp only [encTV, encUB, List.length_append, padBytes_length, putUInt_length]
    omega
  | bo, off, .struct fields => by
    have h1 := padLen_lt off 8 (by norm_num)
    have h2 := encSeqLen_le_encUBList bo (off + padLen off 8) fields
    simp only [encTV, encUB, List.length_append, padBytes_length]
    omega
  | bo, off, .variant t v => by
    have h1 := encLen_le_encUB bo
      (off + (putUInt bo 1 (sigBytes t).length ++ sigBytes t ++ [0]).length) v
    simp only [List.length_append, putUInt_length, List.length_cons, List.length_nil] at h1
    simp only [encTV, encUB, List.length_append, putUInt_length, List.length_cons,
      List.length_nil]
    omega
  | bo, off, .dictEntry k v => by
    have h1 := padLen_lt off 8 (by norm_num)
    have h2 := encLen_le_encUB bo (off + padLen off 8) k
    have h3 := encLen_le_encUB bo
      (off + padLen off 8 + (encTV bo (off + padLen off 8) k).length) v
    simp only [List.length_append, padBytes_length] at h2 h3
    simp only [encTV, encUB, List.length_append, padBytes_length]
    omega

theorem encSeqLen_le_encUBList : ∀ (bo : ByteOrder) (off : Nat) (vs : List TypedValue),
    (encSeq bo off vs).length ≤ encUBList vs
  | bo, off, [] => by simp [encSeq, encUBList]
  | bo, off, v :: vs => by
    have h1 := encLen_le_encUB bo off v
    have h2 := encSeqLen_le_encUBList bo (off + (encTV bo off v).length) vs
    simp only [encSeq, encUBList, List.length_append]
    omega

end


mutual

theorem tvFuel_lt_encLen : ∀ (bo : ByteOrder) (off : Nat) (v : TypedValue) (t : DType),
    hasType v t = true → validType t = true → tvFuel v < (encTV bo off v).length
  | bo, off, .byte n, t, hv, ht => by simp [tvFuel, encTV]
  | bo, off, .boolean b, t, hv, ht => by
    simp [tvFuel, encTV, padBytes_length, putUInt_length]
  | bo, off, .int16 i, t, hv, ht => by
    simp [tvFuel, encTV, padBytes_length, putUInt_length]
  | bo, off, .uint16 n, t, hv, ht => by
    simp [tvFuel, encTV, padBytes_length, putUInt_length]
  | bo, off, .int32 i, t, hv, ht => by
    simp [tvFuel, encTV, padBytes_length, putUInt_length]
  | bo, off, .uint32 n, t, hv, ht => by
    simp [tvFuel, encTV, padBytes_length, putUInt_length]
  | bo, off, .int64 i, t, hv, ht => by
    simp [tvFuel, encTV, padBytes_length, putUInt_length]
  | bo, off, .uint64 n, t, hv, ht => by
    simp [tvFuel, encTV, padBytes_length, putUInt_length]
  | bo, off, .double bits, t, hv, ht => by
    simp [tvFuel, encTV, padBytes_length, putUInt_length]
  | bo, off, .string s, t, hv, ht => by
    simp [tvFuel, encTV, padBytes_length, putUInt_length]
  | bo, off, .objectPath s, t, hv, ht => by
    simp [tvFuel, encTV, padBytes_length, putUInt_length]
  | bo, off, .signature ts, t, hv, ht => by
    simp [tvFuel, encTV, putUInt_length]
  | bo, off, .array e items, t, hv, ht => by
    obtain ⟨rfl, hall, hvalid, hub⟩ := hasType_array_inv e items t hv ht
    have h1 := listFuel_le_encSeqLen bo
      (off + padLen off 4 + 4 + padLen (off + padLen off 4 + 4) (alignOf e)) items e
      hall hvalid
    simp only [List.length_append] at h1
    simp only [tvFuel, encTV, List.length_append, padBytes_length, putUInt_length]
    omega
  | bo, off, .struct vs, t, hv, ht => by
    obtain ⟨ts, rfl, hts, hvts, hne⟩ := hasType_struct_inv vs t hv ht
    match vs, ts, hts, hvts, hne with
    | _, [], hts, hvts, hne => exact absurd rfl hne
    | [], t1 :: trest, hts, hvts, hne => simp [hasTypes] at hts
    | v1 :: vrest, t1 :: trest, hts, hvts, hne =>
      simp only [hasTypes, Bool.and_eq_true] at hts
      simp only [validTypes, Bool.and_eq_true] at hvts
      have ha := tvFuel_lt_encLen bo (off + padLen off 8) v1 t1 hts.1 hvts.1
      have hb := fieldsFuel_le_encSeqLen bo
        (off + padLen off 8 + (encTV bo (off + padLen off 8) v1).length) vrest trest
        hts.2 hvts.2
      simp only [tvFuel, fieldsFuel, encTV, encSeq, List.length_append, padBytes_length]
      omega
  | bo, off, .variant t1 pv, t, hv, ht => by
    obtain ⟨rfl, hvalid, hsig, hpv⟩ := hasType_variant_inv t1 pv t hv ht
    have h1 := tvFuel_lt_encLen bo
      (off + (putUInt bo 1 (sigBytes t1).length ++ sigBytes t1 ++ [0]).length) pv t1 hpv hvalid
    simp only [List.length_append, putUInt_length, List.length_cons, List.length_nil] at h1
    simp only [tvFuel, encTV, List.length_append, putUInt_length, List.length_cons,
      List.length_nil]
    omega
  | bo, off, .dictEntry k v, t, hv, ht => by
    obtain ⟨tk, tv, rfl, hk, hvv, hvk, hvtv⟩ := hasType_dict_inv k v t hv ht
    have h1 := tvFuel_lt_encLen bo (off + padLen off 8) k tk hk hvk
    have h2 := tvFuel_lt_encLen bo
      (off + padLen off 8 + (encTV bo (off + padLen off 8) k).length) v tv hvv hvtv
    simp only [List.length_append, padBytes_length] at h1 h2
    simp only [tvFuel, encTV, List.length_append, padBytes_length]
    omega

theorem listFuel_le_encSeqLen : ∀ (bo : ByteOrder) (off : Nat) (vs : List TypedValue)
    (e : DType), allHasType vs e = true → validType e = true →
    listFuel vs ≤ (encSeq bo off vs).length
  | bo, off, [], e, _, _ => by simp [listFuel, encSeq]
  | bo, off, v :: vs, e, hall, hval => by
    simp only [allHasType, Bool.and_eq_true] at hall
    have h1 := tvFuel_lt_encLen bo off v e hall.1 hval
    have h2 := listFuel_le_encSeqLen bo (off + (encTV bo off v).length) vs e hall.2 hval
    simp only [listFuel, encSeq, List.length_append]
    omega

theorem fieldsFuel_le_encSeqLen : ∀ (bo : ByteOrder) (off : Nat) (vs : List TypedValue)
    (ts : List DType), hasTypes vs ts = true → validTypes ts = true →
    fieldsFuel vs ≤ (encSeq bo off vs).length
  | bo, off, [], [], _, _ => by simp [fieldsFuel, encSeq]
  | bo, off, [], t :: ts, hts, _ => by simp [hasTypes] at hts
  | bo, off, v :: vs, [], hts, _ => by simp [hasTypes] at hts
  | bo, off, v :: vs, t :: ts, hts, hvt => by
    simp only [hasTypes, Bool.and_eq_true] at hts
    simp only [validTypes, Bool.and_eq_true] at hvt
    have h1 := tvFuel_lt_encLen bo off v t hts.1 hvt.1
    have h2 := fieldsFuel_le_encSeqLen bo (off + (encTV bo off v).length) vs ts hts.2 hvt.2
    simp only [fieldsFuel, encSeq, List.length_append]
    omega

end


theorem decTV_enc_uint16 (bo : ByteOrder) (fuel n : Nat) (pre post : List Nat)
    (hv : hasType (.uint16 n) .uint16 = true) :
    decTV bo (pre ++ (encTV bo pre.length (.uint16 n) ++ post)) fuel .uint16 pre.length
      = .ok (.uint16 n, pre.length + (encTV bo pre.length (.uint16 n)).length) := by
  have hn : n < 256 ^ 2 := by
    have := hv
    simp [hasType] at this
    norm_num
    omega
  have hform : encTV bo pre.length (.uint16 n) ++ post =
      padBytes pre.length 2 ++ (putUInt bo 2 n ++ post) := by
    simp [encTV]
  rw [hform]
  have hfix := readFixed_enc bo pre post 2 2 n hn
  simp only [decTV, hfix]
  simp [encTV, padBytes_length, putUInt_length]
  omega

theorem decTV_enc_int32 (bo : ByteOrder) (fuel : Nat) (i : Int) (pre post : List Nat)
    (hv : hasType (.int32 i) .int32 = true) :
    decTV bo (pre ++ (encTV bo pre.length (.int32 i) ++ post)) fuel .int32 pre.length
      = .ok (.int32 i, pre.length + (encTV bo pre.length (.int32 i)).length) := by
  have hr : -2147483648 ≤ i ∧ i < 2147483648 := by
    have := hv
    simp [hasType] at this
    omega
  have hform : encTV bo pre.length (.int32 i) ++ post =
      padBytes pre.length 4 ++ (putUInt bo 4 (intToWire 4 i) ++ post) := by
    simp [encTV]
  rw [hform]
  have hfix := readFixed_enc bo pre post 4 4 (intToWire 4 i) (intToWire_lt_four i)
  simp only [decTV, hfix, intFromWire_intToWire_four i hr.1 hr.2]
  simp [encTV, padBytes_length, putUInt_length]
  omega

theorem decTV_enc_int64 (bo : ByteOrder) (fuel : Nat) (i : Int) (pre post : List Nat)
    (hv : hasType (.int64 i) .int64 = true) :
    decTV bo (pre ++ (encTV bo pre.length (.int64 i) ++ post)) fuel .int64 pre.length
      = .ok (.int64 i, pre.length + (encTV bo pre.length (.int64 i)).length) := by
  have hr : -9223372036854775808 ≤ i ∧ i < 9223372036854775808 := by
    have := hv
    simp [hasType] at this
    omega
  have hform : encTV bo pre.length (.int64 i) ++ post =
      padBytes pre.length 8 ++ (putUInt bo 8 (intToWire 8 i) ++ post) := by
    simp [encTV]
  rw [hform]
  have hfix := readFixed_enc bo pre post 8 8 (intToWire 8 i) (intToWire_lt_eight i)
  simp only [decTV, hfix, intFromWire_intToWire_eight i hr.1 hr.2]
  simp [encTV, padBytes_length, putUInt_length]
  omega

theorem decTV_enc_uint64 (bo : ByteOrder) (fuel n : Nat) (pre post : List Nat)
    (hv : hasType (.uint64 n) .uint64 = true) :
    decTV bo (pre ++ (encTV bo pre.length (.uint64 n) ++ post)) fuel .uint64 pre.length
      = .ok (.uint64 n, pre.length + (encTV bo pre.length (.uint64 n)).length) := by
  have hn : n < 256 ^ 8 := by
    have := hv
    simp [hasType] at this
    norm_num
    omega
  have hform : encTV bo pre.length (.uint64 n) ++ post =
      padBytes pre.length 8 ++ (putUInt bo 8 n ++ post) := by
    simp [encTV]
  rw [hform]
  have hfix := readFixed_enc bo pre post 8 8 n hn
  simp only [decTV, hfix]
  simp [encTV, padBytes_length, putUInt_length]
  omega

theorem decTV_enc_double (bo : ByteOrder) (fuel bits : Nat) (pre post : List Nat)
    (hv : hasType (.double bits) .double = true) :
    decTV bo (pre ++ (encTV bo pre.length (.double bits) ++ post)) fuel .double pre.length
      = .ok (.double bits, pre.length + (encTV bo pre.length (.double bits)).length) := by
  have hn : bits < 256 ^ 8 := by
    have := hv
    simp [hasType] at this
    norm_num
    omega
  have hform : encTV bo pre.length (.double bits) ++ post =
      padBytes pre.length 8 ++ (putUInt bo 8 bits ++ post) := by
    simp [encTV]
  rw [hform]
  have hfix := readFixed_enc bo pre post 8 8 bits hn
  simp only [decTV, hfix]
  simp [encTV, padBytes_length, putUInt_length]
  omega

theorem decTV_enc_objectPath (bo : ByteOrder) (fuel : Nat) (s : String) (pre post : List Nat)
    (hv : hasType (.objectPath s) .objectPath = true) :
    decTV bo (pre ++ (encTV bo pre.length (.objectPath s) ++ post)) fuel
      .objectPath pre.length
      = .ok (.objectPath s, pre.length + (encTV bo pre.length (.objectPath s)).length) := by
  have hlen : (utf8Encode s.data).length < 4294967296 := by
    simpa [hasType] using hv
  have hform : encTV bo pre.length (.objectPath s) ++ post =
      padBytes pre.length 4 ++ (putUInt bo 4 (utf8Encode s.data).length ++
        (utf8Encode s.data ++ ([0] ++ post))) := by
    simp [encTV]
  rw [hform]
  have hstr := readStr_enc bo pre post s.data hlen
  simp only [decTV, hstr, string_mk_data]
  simp [encTV, padBytes_length, putUInt_length]
  omega


theorem readArrayHead_enc (bo : ByteOrder) (pre post : List Nat) (align n : Nat)
    (hn : n < 256 ^ 4) :
    readArrayHead bo (pre ++ (padBytes pre.length 4 ++ (putUInt bo 4 n ++
        (padBytes (pre.length + padLen pre.length 4 + 4) align ++ post)))) pre.length align
      = .ok (n, pre.length + padLen pre.length 4 + 4 +
          padLen (pre.length + padLen pre.length 4 + 4) align) := by
  set bytes := pre ++ (padBytes pre.length 4 ++ (putUInt bo 4 n ++
      (padBytes (pre.length + padLen pre.length 4 + 4) align ++ post))) with hbytes
  have hr1 := readBytes_exact bytes (pre ++ padBytes pre.length 4) (putUInt bo 4 n)
    (padBytes (pre.length + padLen pre.length 4 + 4) align ++ post) 4
    (by rw [hbytes]; simp) (putUInt_length bo 4 n)
  have hl1 : (pre ++ padBytes pre.length 4).length = pre.length + padLen pre.length 4 := by
    simp [padBytes_length]
  rw [hl1] at hr1
  simp only [readArrayHead, hr1, getUInt_putUInt bo 4 n hn]

mutual

theorem decTV_encTV : ∀ (v : TypedValue) (t : DType) (bo : ByteOrder) (fuel : Nat)
    (pre post : List Nat), hasType v t = true → validType t = true → tvFuel v ≤ fuel →
    decTV bo (pre ++ (encTV bo pre.length v ++ post)) fuel t pre.length
      = .ok (v, pre.length + (encTV bo pre.length v).length)
  | .byte n, t, bo, fuel, pre, post, hv, ht, hf => by
    obtain rfl : t = .byte := by cases t <;> first | rfl | simp [hasType] at hv
    exact decTV_enc_byte bo fuel n pre post hv
  | .boolean b, t, bo, fuel, pre, post, hv, ht, hf => by
    obtain rfl : t = .boolean := by cases t <;> first | rfl | simp [hasType] at hv
    exact decTV_enc_boolean bo fuel b pre post
  | .int16 i, t, bo, fuel, pre, post, hv, ht, hf => by
    obtain rfl : t = .int16 := by cases t <;> first | rfl | simp [hasType] at hv
    exact decTV_enc_int16 bo fuel i pre post hv
  | .uint16 n, t, bo, fuel, pre, post, hv, ht, hf => by
    obtain rfl : t = .uint16 := by cases t <;> first | rfl | simp [hasType] at hv
    exact decTV_enc_uint16 bo fuel n pre post hv
  | .int32 i, t, bo, fuel, pre, post, hv, ht, hf => by
    obtain rfl : t = .int32 := by cases t <;> first | rfl | simp [hasType] at hv
    exact decTV_enc_int32 bo fuel i pre post hv
  | .uint32 n, t, bo, fuel, pre, post, hv, ht, hf => by
    obtain rfl : t = .uint32 := by cases t <;> first | rfl | simp [hasType] at hv
    exact decTV_enc_uint32 bo fuel n pre post hv
  | .int64 i, t, bo, fuel, pre, post, hv, ht, hf => by
    obtain rfl : t = .int64 := by cases t <;> first | rfl | simp [hasType] at hv
    exact decTV_enc_int64 bo fuel i pre post hv
  | .uint64 n, t, bo, fuel, pre, post, hv, ht, hf => by
    obtain rfl : t = .uint64 := by cases t <;> first | rfl | simp [hasType] at hv
    exact decTV_enc_uint64 bo fuel n pre post hv
  | .double bits, t, bo, fuel, pre, post, hv, ht, hf => by
    obtain rfl : t = .double := by cases t <;> first | rfl | simp [hasType] at hv
    exact decTV_enc_double bo fuel bits pre post hv
  | .string s, t, bo, fuel, pre, post, hv, ht, hf => by
    obtain rfl : t = .string := by cases t <;> first | rfl | simp [hasType] at hv
    exact decTV_enc_string bo fuel s pre post hv
  | .objectPath s, t, bo, fuel, pre, post, hv, ht, hf => by
    obtain rfl : t = .objectPath := by cases t <;> first | rfl | simp [hasType] at hv
    exact decTV_enc_objectPath bo fuel s pre post hv
  | .signature ts, t, bo, fuel, pre, post, hv, ht, hf => by
    obtain rfl : t = .signature := by cases t <;> first | rfl | simp [hasType] at hv
    exact decTV_enc_signature bo fuel ts pre post hv
  | .array e items, t, bo, fuel, pre, post, hv, ht, hf => by
    obtain ⟨rfl, hall, hvalid, hub⟩ := hasType_array_inv e items t hv ht
    have hf2 : listFuel items ≤ fuel := by
      simpa [tvFuel] using hf
    have hup := encSeqLen_le_encUBList bo (pre.length + padLen pre.length 4 + 4 +
      padLen (pre.length + padLen pre.length 4 + 4) (alignOf e)) items
    have hlenlt : (encSeq bo (pre.length + padLen pre.length 4 + 4 +
        padLen (pre.length + padLen pre.length 4 + 4) (alignOf e)) items).length
          < 256 ^ 4 := by
      norm_num
      omega
    have hhead := readArrayHead_enc bo pre
      (encSeq bo (pre.length + padLen pre.length 4 + 4 +
        padLen (pre.length + padLen pre.length 4 + 4) (alignOf e)) items ++ post)
      (alignOf e)
      (encSeq bo (pre.length + padLen pre.length 4 + 4 +
        padLen (pre.length + padLen pre.length 4 + 4) (alignOf e)) items).length hlenlt
    have hdec := decElems_enc items e bo fuel
      (pre ++ padBytes pre.length 4 ++
        putUInt bo 4 (encSeq bo (pre.length + padLen pre.length 4 + 4 +
          padLen (pre.length + padLen pre.length 4 + 4) (alignOf e)) items).length ++
        padBytes (pre.length + padLen pre.length 4 + 4) (alignOf e)) post hall hvalid hf2
    simp only [List.length_append, padBytes_length, putUInt_length] at hdec
    have hbytes : pre ++ (encTV bo pre.length (.array e items) ++ post) =
        pre ++ (padBytes pre.length 4 ++
          (putUInt bo 4 (encSeq bo (pre.length + padLen pre.length 4 + 4 +
            padLen (pre.length + padLen pre.length 4 + 4) (alignOf e)) items).length ++
          (padBytes (pre.length + padLen pre.length 4 + 4) (alignOf e) ++
            (encSeq bo (pre.length + padLen pre.length 4 + 4 +
              padLen (pre.length + padLen pre.length 4 + 4) (alignOf e)) items ++ post)))) := by
      simp only [encTV, List.append_assoc, List.length_append, padBytes_length,
        putUInt_length]
    rw [hbytes]
    simp only [decTV, hhead]
    have hblen : (pre ++ (padBytes pre.length 4 ++
        (putUInt bo 4 (encSeq bo (pre.length + padLen pre.length 4 + 4 +
          padLen (pre.length + padLen pre.length 4 + 4) (alignOf e)) items).length ++
        (padBytes (pre.length + padLen pre.length 4 + 4) (alignOf e) ++
          (encSeq bo (pre.length + padLen pre.length 4 + 4 +
            padLen (pre.length + padLen pre.length 4 + 4) (alignOf e)) items ++
              post))))).length =
        pre.length + padLen pre.length 4 + 4 +
          padLen (pre.length + padLen pre.length 4 + 4) (alignOf e) +
          (encSeq bo (pre.length + padLen pre.length 4 + 4 +
            padLen (pre.length + padLen pre.length 4 + 4) (alignOf e)) items).length +
          post.length := by
      simp [padBytes_length, putUInt_length]
      omega
    rw [hblen]
    have hle : pre.length + padLen pre.length 4 + 4 +
        padLen (pre.length + padLen pre.length 4 + 4) (alignOf e) +
        (encSeq bo (pre.length + padLen pre.length 4 + 4 +
          padLen (pre.length + padLen pre.length 4 + 4) (alignOf e)) items).length ≤
        pre.length + padLen pre.length 4 + 4 +
          padLen (pre.length + padLen pre.length 4 + 4) (alignOf e) +
          (encSeq bo (pre.length + padLen pre.length 4 + 4 +
            padLen (pre.length + padLen pre.length 4 + 4) (alignOf e)) items).length +
          post.length := by
      omega
    rw [if_pos hle]
    have hassoc4 : pre ++ (padBytes pre.length 4 ++
        (putUInt bo 4 (encSeq bo (pre.length + padLen pre.length 4 + 4 +
          padLen (pre.length + padLen pre.length 4 + 4) (alignOf e)) items).length ++
        (padBytes (pre.length + padLen pre.length 4 + 4) (alignOf e) ++
          (encSeq bo (pre.length + padLen pre.length 4 + 4 +
            padLen (pre.length + padLen pre.length 4 + 4) (alignOf e)) items ++
              post)))) =
        (pre ++ padBytes pre.length 4 ++
          putUInt bo 4 (encSeq bo (pre.length + padLen pre.length 4 + 4 +
            padLen (pre.length + padLen pre.length 4 + 4) (alignOf e)) items).length ++
          padBytes (pre.length + padLen pre.length 4 + 4) (alignOf e)) ++
          (encSeq bo (pre.length + padLen pre.length 4 + 4 +
            padLen (pre.length + padLen pre.length 4 + 4) (alignOf e)) items ++ post) := by
      simp
    simp only [hassoc4, hdec]
    simp only [encTV, List.length_append, padBytes_length, putUInt_length]
    congr 2
    omega
  | .struct vs, t, bo, fuel, pre, post, hv, ht, hf => by
    obtain ⟨ts, rfl, hts, hvts, hne⟩ := hasType_struct_inv vs t hv ht
    have hf2 : fieldsFuel vs ≤ fuel := by
      simpa [tvFuel] using hf
    have hdec := decFields_enc vs ts bo fuel (pre ++ padBytes pre.length 8) post hts hvts hf2
    simp only [List.length_append, padBytes_length] at hdec
    have hbytes : pre ++ (encTV bo pre.length (.struct vs) ++ post) =
        (pre ++ padBytes pre.length 8) ++
          (encSeq bo (pre.length + padLen pre.length 8) vs ++ post) := by
      simp [encTV, padBytes_length]
    rw [hbytes]
    simp only [decTV, hdec]
    simp [encTV, padBytes_length, Nat.add_assoc]
  | .variant t1 pv, t, bo, fuel, pre, post, hv, ht, hf => by
    obtain ⟨rfl, hvalid, hsig, hpv⟩ := hasType_variant_inv t1 pv t hv ht
    obtain ⟨f, rfl⟩ : ∃ f, fuel = f + 1 := by
      cases fuel
      · simp only [tvFuel] at hf
        omega
      · exact ⟨_, rfl⟩
    have hfp : tvFuel pv ≤ f := by
      simp only [tvFuel] at hf
      omega
    have hread := readSigBytes_enc bo pre
      (encTV bo (pre.length + 1 + (sigBytes t1).length + 1) pv ++ post) (sigBytes t1) hsig
    have hparse0 := parseSigOne_rt t1 [] ((sigBytes t1).length + 1)
      (Nat.le_trans (sigFuel_le_length t1) (by omega))
    rw [List.append_nil] at hparse0
    have hpay := decTV_encTV pv t1 bo f
      (pre ++ (putUInt bo 1 (sigBytes t1).length ++ (sigBytes t1 ++ [0]))) post hpv hvalid hfp
    simp only [List.length_append, putUInt_length, List.length_cons, List.length_nil] at hpay
    have harith : pre.length + (1 + ((sigBytes t1).length + (0 + 1))) =
        pre.length + 1 + (sigBytes t1).length + 1 := by
      omega
    rw [harith] at hpay
    have hbytes : pre ++ (encTV bo pre.length (.variant t1 pv) ++ post) =
        pre ++ (putUInt bo 1 (sigBytes t1).length ++ (sigBytes t1 ++ ([0] ++
          (encTV bo (pre.length + 1 + (sigBytes t1).length + 1) pv ++ post)))) := by
      simp only [encTV, List.append_assoc, List.cons_append, List.nil_append,
        List.length_append, putUInt_length, List.length_cons, List.length_nil]
      rw [harith]
    rw [hbytes]
    simp only [decTV, hread, hparse0]
    simp only [decVariantPayload]
    have hassoc3 : pre ++ (putUInt bo 1 (sigBytes t1).length ++ (sigBytes t1 ++ ([0] ++
        (encTV bo (pre.length + 1 + (sigBytes t1).length + 1) pv ++ post)))) =
        (pre ++ (putUInt bo 1 (sigBytes t1).length ++ (sigBytes t1 ++ [0]))) ++
          (encTV bo (pre.length + 1 + (sigBytes t1).length + 1) pv ++ post) := by
      simp
    simp only [hassoc3, hpay]
    simp only [encTV, List.length_append, putUInt_length, List.length_cons, List.length_nil]
    have harith2 : pre.length + (1 + (sigBytes t1).length + (0 + 1)) =
        pre.length + 1 + (sigBytes t1).length + 1 := by
      omega
    rw [harith2]
    congr 2
    omega
  | .dictEntry k v, t, bo, fuel, pre, post, hv, ht, hf => by
    obtain ⟨tk, tv, rfl, hk, hvv, hvtk, hvtv⟩ := hasType_dict_inv k v t hv ht
    have hfk : tvFuel k ≤ fuel := by
      simp only [tvFuel] at hf
      omega
    have hfv : tvFuel v ≤ fuel := by
      simp only [tvFuel] at hf
      omega
    have hdk := decTV_encTV k tk bo fuel (pre ++ padBytes pre.length 8)
      (encTV bo (pre.length + padLen pre.length 8 +
        (encTV bo (pre.length + padLen pre.length 8) k).length) v ++ post) hk hvtk hfk
    simp only [List.length_append, padBytes_length] at hdk
    have hdv := decTV_encTV v tv bo fuel
      (pre ++ padBytes pre.length 8 ++ encTV bo (pre.length + padLen pre.length 8) k)
      post hvv hvtv hfv
    simp only [List.length_append, padBytes_length] at hdv
    have hbytes : pre ++ (encTV bo pre.length (.dictEntry k v) ++ post) =
        (pre ++ padBytes pre.length 8) ++
          (encTV bo (pre.length + padLen pre.length 8) k ++
            (encTV bo (pre.length + padLen pre.length 8 +
              (encTV bo (pre.length + padLen pre.length 8) k).length) v ++ post)) := by
      simp [encTV, padBytes_length]
    rw [hbytes]
    simp only [decTV, hdk]
    have hassoc2 : (pre ++ padBytes pre.length 8) ++
        (encTV bo (pre.length + padLen pre.length 8) k ++
          (encTV bo (pre.length + padLen pre.length 8 +
            (encTV bo (pre.length + padLen pre.length 8) k).length) v ++ post)) =
        (pre ++ padBytes pre.length 8 ++ encTV bo (pre.length + padLen pre.length 8) k) ++
          (encTV bo (pre.length + padLen pre.length 8 +
            (encTV bo (pre.length + padLen pre.length 8) k).length) v ++ post) := by
      simp
    simp only [hassoc2, hdv]
    simp [encTV, padBytes_length, Nat.add_assoc]

theorem decElems_enc : ∀ (vs : List TypedValue) (e : DType) (bo : ByteOrder) (fuel : Nat)
    (pre post : List Nat), allHasType vs e = true → validType e = true →
    listFuel vs ≤ fuel →
    decElems bo (pre ++ (encSeq bo pre.length vs ++ post)) fuel e pre.length
      (pre.length + (encSeq bo pre.length vs).length) = .ok vs
  | [], e, bo, fuel, pre, post, _, _, _ => by
    cases fuel <;> simp [encSeq, decElems]
  | v :: vs, e, bo, fuel, pre, post, hall, hval, hf => by
    simp only [allHasType, Bool.and_eq_true] at hall
    obtain ⟨f, rfl⟩ : ∃ f, fuel = f + 1 := by
      cases fuel
      · simp only [listFuel] at hf
        omega
      · exact ⟨_, rfl⟩
    have hf1 : tvFuel v ≤ f := by
      simp only [listFuel] at hf
      omega
    have hf2 : listFuel vs ≤ f := by
      simp only [listFuel] at hf
      omega
    have hb := tvFuel_lt_encLen bo pre.length v e hall.1 hval
    have hdec1 := decTV_encTV v e bo f pre
      (encSeq bo (pre.length + (encTV bo pre.length v).length) vs ++ post) hall.1 hval hf1
    have hdec2 := decElems_enc vs e bo f (pre ++ encTV bo pre.length v) post hall.2 hval hf2
    simp only [List.length_append] at hdec2
    have hbytes : pre ++ (encSeq bo pre.length (v :: vs) ++ post) =
        pre ++ (encTV bo pre.length v ++
          (encSeq bo (pre.length + (encTV bo pre.length v).length) vs ++ post)) := by
      simp [encSeq]
    have hlen : (encSeq bo pre.length (v :: vs)).length =
        (encTV bo pre.length v).length +
          (encSeq bo (pre.length + (encTV bo pre.length v).length) vs).length := by
      simp [encSeq]
    have hne : ¬ (pre.length = pre.length + ((encTV bo pre.length v).length +
        (encSeq bo (pre.length + (encTV bo pre.length v).length) vs).length)) := by
      omega
    have hne2 : ¬ (pre.length + ((encTV bo pre.length v).length +
        (encSeq bo (pre.length + (encTV bo pre.length v).length) vs).length) <
          pre.length + (encTV bo pre.length v).length) := by
      omega
    have hne3 : ¬ (pre.length + (encTV bo pre.length v).length ≤ pre.length) := by
      omega
    have harith : pre.length + ((encTV bo pre.length v).length +
        (encSeq bo (pre.length + (encTV bo pre.length v).length) vs).length) =
          pre.length + (encTV bo pre.length v).length +
            (encSeq bo (pre.length + (encTV bo pre.length v).length) vs).length := by
      omega
    have hassoc : pre ++ (encTV bo pre.length v ++
        (encSeq bo (pre.length + (encTV bo pre.length v).length) vs ++ post)) =
        (pre ++ encTV bo pre.length v) ++
          (encSeq bo (pre.length + (encTV bo pre.length v).length) vs ++ post) := by
      simp
    rw [hbytes, hlen]
    simp only [decElems, if_neg hne, hdec1, if_neg hne2, if_neg hne3]
    rw [harith, hassoc, hdec2]

theorem decFields_enc : ∀ (vs : List TypedValue) (ts : List DType) (bo : ByteOrder)
    (fuel : Nat) (pre post : List Nat), hasTypes vs ts = true → validTypes ts = true →
    fieldsFuel vs ≤ fuel →
    decFields bo (pre ++ (encSeq bo pre.length vs ++ post)) fuel ts pre.length
      = .ok (vs, pre.length + (encSeq bo pre.length vs).length)
  | [], [], bo, fuel, pre, post, _, _, _ => by
    simp [encSeq, decFields]
  | [], tt :: ts, bo, fuel, pre, post, hts, _, _ => by
    simp [hasTypes] at hts
  | v :: vs, [], bo, fuel, pre, post, hts, _, _ => by
    simp [hasTypes] at hts
  | v :: vs, tt :: ts, bo, fuel, pre, post, hts, hvt, hf => by
    simp only [hasTypes, Bool.and_eq_true] at hts
    simp only [validTypes, Bool.and_eq_true] at hvt
    have hf1 : tvFuel v ≤ fuel := by
      simp only [fieldsFuel] at hf
      omega
    have hf2 : fieldsFuel vs ≤ fuel := by
      simp only [fieldsFuel] at hf
      omega
    have hdec1 := decTV_encTV v tt bo fuel pre
      (encSeq bo (pre.length + (encTV bo pre.length v).length) vs ++ post) hts.1 hvt.1 hf1
    have hdec2 := decFields_enc vs ts bo fuel (pre ++ encTV bo pre.length v) post
      hts.2 hvt.2 hf2
    simp only [List.length_append] at hdec2
    have hbytes : pre ++ (encSeq bo pre.length (v :: vs) ++ post) =
        pre ++ (encTV bo pre.length v ++
          (encSeq bo (pre.length + (encTV bo pre.length v).length) vs ++ post)) := by
      simp [encSeq]
    have hassoc : pre ++ (encTV bo pre.length v ++
        (encSeq bo (pre.length + (encTV bo pre.length v).length) vs ++ post)) =
        (pre ++ encTV bo pre.length v) ++
          (encSeq bo (pre.length + (encTV bo pre.length v).length) vs ++ post) := by
      simp
    have hlen : (encSeq bo pre.length (v :: vs)).length =
        (encTV bo pre.length v).length +
          (encSeq bo (pre.length + (encTV bo pre.length v).length) vs).length := by
      simp [encSeq]
    rw [hbytes]
    simp only [decFields, hdec1]
    simp only [hassoc, hdec2]
    simp [hlen, Nat.add_assoc]

end

/-- Claim C3: for every supported TypedValue `v` and its signature `t` (in
either byte order), decoding the encoding round-trips: `encode` succeeds
with the laid-out bytes and `decode(encode(v, t), t, 0)` returns `v` with
the new offset at the end of the encoded bytes. -/
theorem dbus_codec_roundtrip (bo : ByteOrder) (v : TypedValue) (t : DType)
    (hv : hasType v t = true) (ht : validType t = true) :
    encode bo t v = .ok (encTV bo 0 v) ∧
      decode bo (encTV bo 0 v) t 0 = .ok (v, (encTV bo 0 v).length) := by
  constructor
  · simp [encode, hv, ht]
  · have h := decTV_encTV v t bo (encTV bo 0 v).length [] [] hv ht
      (le_of_lt (tvFuel_lt_encLen bo 0 v t hv ht))
    simpa [decode] using h

/-- Witness for C3: a mixed struct with a byte, a string, an int32 array, a
variant and a dict entry round-trips through the little-endian codec. -/
theorem dbus_codec_roundtrip_witness :
    (hasType
        (.struct [.byte 5, .string "hi", .array .int32 [.int32 (-3), .int32 7],
          .variant .byte (.byte 9), .dictEntry (.uint16 3) (.boolean true)])
        (.struct [.byte, .string, .array .int32, .variant,
          .dictEntry .uint16 .boolean]) = true ∧
      validType (.struct [.byte, .string, .array .int32, .variant,
        .dictEntry .uint16 .boolean]) = true) ∧
    (encode .little
        (.struct [.byte, .string, .array .int32, .variant, .dictEntry .uint16 .boolean])
        (.struct [.byte 5, .string "hi", .array .int32 [.int32 (-3), .int32 7],
          .variant .byte (.byte 9), .dictEntry (.uint16 3) (.boolean true)])
      = .ok (encTV .little 0
        (.struct [.byte 5, .string "hi", .array .int32 [.int32 (-3), .int32 7],
          .variant .byte (.byte 9), .dictEntry (.uint16 3) (.boolean true)])) ∧
      decode .little
        (encTV .little 0
          (.struct [.byte 5, .string "hi", .array .int32 [.int32 (-3), .int32 7],
            .variant .byte (.byte 9), .dictEntry (.uint16 3) (.boolean true)]))
        (.struct [.byte, .string, .array .int32, .variant, .dictEntry .uint16 .boolean]) 0
      = .ok (.struct [.byte 5, .string "hi", .array .int32 [.int32 (-3), .int32 7],
          .variant .byte (.byte 9), .dictEntry (.uint16 3) (.boolean true)],
        (encTV .little 0
          (.struct [.byte 5, .string "hi", .array .int32 [.int32 (-3), .int32 7],
            .variant .byte (.byte 9), .dictEntry (.uint16 3) (.boolean true)])).length)) :=
  ⟨⟨by decide, by decide⟩,
    dbus_codec_roundtrip .little
      (.struct [.byte 5, .string "hi", .array .int32 [.int32 (-3), .int32 7],
        .variant .byte (.byte 9), .dictEntry (.uint16 3) (.boolean true)])
      (.struct [.byte, .string, .array .int32, .variant, .dictEntry .uint16 .boolean])
      (by decide) (by decide)⟩


theorem lookup_mem (l : List (Nat × CallResult)) (k : Nat) (v : CallResult)
    (h : l.lookup k = some v) : (k, v) ∈ l := by
  induction l with
  | nil => simp [List.lookup] at h
  | cons p l ih =>
    obtain ⟨k1, v1⟩ := p
    by_cases hk : k = k1
    · subst hk
      simp [List.lookup] at h
      simp [h]
    · have hb : (k == k1) = false := by simpa using hk
      simp only [List.lookup, hb] at h
      exact List.mem_cons_of_mem _ (ih h)

theorem lookup_map_const_append (l : List Nat) (rest : List (Nat × CallResult))
    (s : Nat) (c : CallResult) (h : s ∈ l) :
    ((l.map (fun x => (x, c))) ++ rest).lookup s = some c := by
  induction l with
  | nil => simp at h
  | cons a l ih =>
    by_cases ha : s = a
    · subst ha
      simp [List.lookup]
    · have hb : (s == a) = false := by simpa using ha
      have hmem : s ∈ l := by
        rcases List.mem_cons.mp h with h1 | h1
        · exact absurd h1 ha
        · exact h1
      simp only [List.map_cons, List.cons_append, List.lookup, hb]
      exact ih hmem

theorem dispRun_resolved_match (evs : List DispEvent) :
    ∀ p ∈ (dispRun evs).resolved, ∀ m : ReplyMsg,
      p.2 = CallResult.replied m → m.replySerial = p.1 := by
  have aux : ∀ (evs : List DispEvent) (st : DispState),
      (∀ p ∈ st.resolved, ∀ m : ReplyMsg, p.2 = CallResult.replied m → m.replySerial = p.1) →
      ∀ p ∈ (evs.foldl dispStep st).resolved, ∀ m : ReplyMsg,
        p.2 = CallResult.replied m → m.replySerial = p.1 := by
    intro evs
    induction evs with
    | nil => intro st h; simpa using h
    | cons e evs ih =>
      intro st h
      refine ih (dispStep st e) ?_
      intro p hp m hm
      cases e with
      | send =>
        apply h
        · revert hp
          simp only [dispStep]
          split <;> simp
        · exact hm
      | recvReply m2 =>
        revert hp
        simp only [dispStep]
        split
        · intro hp
          rcases List.mem_cons.mp hp with h1 | h1
          · subst h1
            simp at hm
            subst hm
            rfl
          · exact h p h1 m hm
        · intro hp
          exact h p hp m hm
      | timeout s =>
        revert hp
        simp only [dispStep]
        split
        · intro hp
          rcases List.mem_cons.mp hp with h1 | h1
          · subst h1
            simp at hm
          · exact h p h1 m hm
        · intro hp
          exact h p hp m hm
      | cancel s =>
        revert hp
        simp only [dispStep]
        split
        · intro hp
          rcases List.mem_cons.mp hp with h1 | h1
          · subst h1
            simp at hm
          · exact h p h1 m hm
        · intro hp
          exact h p hp m hm
      | close =>
        revert hp
        simp only [dispStep]
        split
        · intro hp
          rcases List.mem_append.mp hp with h1 | h1
          · obtain ⟨x, hx, hx2⟩ := List.mem_map.mp h1
            rw [← hx2] at hm
            simp at hm
          · exact h p h1 m hm
        · intro hp
          exact h p hp m hm
  exact aux evs initDisp (by simp [initDisp])


/-- Claim C4: for any interleaving of concurrent in-flight calls with
distinct serials and any arrival order of replies (including reverse
order), awaitReply for a serial resolves with a reply only when that
reply's reply-serial equals the serial. -/
theorem dispatcher_correlation (evs : List DispEvent) (s : Nat) (m : ReplyMsg)
    (h : awaitReply (dispRun evs) s = some (.replied m)) :
    m.replySerial = s := by
  have hm := lookup_mem _ _ _ h
  exact dispRun_resolved_match evs (s, .replied m) hm m rfl

/-- Witness for C4: two concurrent calls answered in reverse order each
resolve with their own reply. -/
theorem dispatcher_correlation_witness :
    (awaitReply (dispRun [.send, .send,
        .recvReply ⟨2, false, 77⟩, .recvReply ⟨1, false, 88⟩]) 2
      = some (.replied ⟨2, false, 77⟩) ∧
     awaitReply (dispRun [.send, .send,
        .recvReply ⟨2, false, 77⟩, .recvReply ⟨1, false, 88⟩]) 1
      = some (.replied ⟨1, false, 88⟩)) ∧
    (⟨2, false, 77⟩ : ReplyMsg).replySerial = 2 :=
  ⟨⟨by decide, by decide⟩,
    dispatcher_correlation [.send, .send, .recvReply ⟨2, false, 77⟩,
      .recvReply ⟨1, false, 88⟩] 2 ⟨2, false, 77⟩ (by decide)⟩


/-- Claim C5: when a pending call's timeout elapses, its PendingCall is
removed and awaitReply resolves with TimeoutError; a reply arriving later
for that already-timed-out serial leaves the dispatcher state completely
unchanged — discarded silently, never resolving the resolved call. -/
theorem dispatcher_timeout_late_reply (st : DispState) (s : Nat) (m : ReplyMsg)
    (hs : s ∈ st.pending) (hrun : st.loopRunning = true) (hm : m.replySerial = s) :
    s ∉ (dispStep st (.timeout s)).pending ∧
    awaitReply (dispStep st (.timeout s)) s = some .timedOut ∧
    dispStep (dispStep st (.timeout s)) (.recvReply m) = dispStep st (.timeout s) := by
  have hc : st.pending.contains s = true := by simpa using hs
  have hstep : dispStep st (.timeout s) =
      { st with pending := st.pending.filter (fun x => x ≠ s),
                resolved := (s, .timedOut) :: st.resolved } := by
    simp [dispStep, hrun, hs]
  refine ⟨?_, ?_, ?_⟩
  · rw [hstep]
    simp
  · rw [hstep]
    simp [awaitReply, List.lookup]
  · rw [hstep]
    have hnc : (st.pending.filter (fun x => x ≠ s)).contains s = false := by
      simp
    simp [dispStep, hm, hnc]

/-- Witness for C5: serial 2 of two in-flight calls times out, then its
late reply is discarded. -/
theorem dispatcher_timeout_late_reply_witness :
    (2 ∈ (dispRun [.send, .send]).pending ∧
      (dispRun [.send, .send]).loopRunning = true ∧
      (⟨2, false, 99⟩ : ReplyMsg).replySerial = 2) ∧
    (2 ∉ (dispStep (dispRun [.send, .send]) (.timeout 2)).pending ∧
      awaitReply (dispStep (dispRun [.send, .send]) (.timeout 2)) 2 = some .timedOut ∧
      dispStep (dispStep (dispRun [.send, .send]) (.timeout 2)) (.recvReply ⟨2, false, 99⟩)
        = dispStep (dispRun [.send, .send]) (.timeout 2)) :=
  ⟨⟨by decide, by decide, by decide⟩,
    dispatcher_timeout_late_reply (dispRun [.send, .send]) 2 ⟨2, false, 99⟩
      (by decide) (by decide) (by decide)⟩

/-- Claim C7: close() performs its teardown — stop the receive loop,
resolve every outstanding PendingCall with ConnectionClosed, release the
transport — and a repeated close has no further effect. -/
theorem connection_close_exactly_once (st : DispState) (hrun : st.loopRunning = true) :
    (dispStep st .close).loopRunning = false ∧
    (dispStep st .close).transportReleased = true ∧
    (dispStep st .close).pending = [] ∧
    (∀ s ∈ st.pending, awaitReply (dispStep st .close) s = some .connectionClosed) ∧
    dispStep (dispStep st .close) .close = dispStep st .close := by
  have hstep : dispStep st .close =
      { st with pending := [],
                resolved := st.pending.map (fun s => (s, .connectionClosed)) ++ st.resolved,
                loopRunning := false,
                transportReleased := true } := by
    simp [dispStep, hrun]
  refine ⟨by rw [hstep], by rw [hstep], by rw [hstep], ?_, ?_⟩
  · intro s hsm
    rw [hstep]
    exact lookup_map_const_append st.pending st.resolved s _ hsm
  · rw [hstep]
    simp [dispStep]

/-- Witness for C7: closing a connection with one in-flight call tears it
down once; a second close is a no-op. -/
theorem connection_close_exactly_once_witness :
    ((dispRun [.send]).loopRunning = true) ∧
    ((dispStep (dispRun [.send]) .close).loopRunning = false ∧
      (dispStep (dispRun [.send]) .close).transportReleased = true ∧
      (dispStep (dispRun [.send]) .close).pending = [] ∧
      (∀ s ∈ (dispRun [.send]).pending,
        awaitReply (dispStep (dispRun [.send]) .close) s = some .connectionClosed) ∧
      dispStep (dispStep (dispRun [.send]) .close) .close
        = dispStep (dispRun [.send]) .close) :=
  ⟨by decide, connection_close_exactly_once (dispRun [.send]) (by decide)⟩

/-- Claim C8: a per-call failure — timeout, cancellation, or an
error-type reply (RemoteError) — for one serial leaves every other
in-flight call's pending entry and outcome unchanged. -/
theorem percall_error_isolation (st : DispState) (s s2 : Nat) (m : ReplyMsg)
    (hne : s2 ≠ s) (hm : m.replySerial = s) :
    ((s2 ∈ (dispStep st (.timeout s)).pending ↔ s2 ∈ st.pending) ∧
      awaitReply (dispStep st (.timeout s)) s2 = awaitReply st s2) ∧
    ((s2 ∈ (dispStep st (.cancel s)).pending ↔ s2 ∈ st.pending) ∧
      awaitReply (dispStep st (.cancel s)) s2 = awaitReply st s2) ∧
    ((s2 ∈ (dispStep st (.recvReply m)).pending ↔ s2 ∈ st.pending) ∧
      awaitReply (dispStep st (.recvReply m)) s2 = awaitReply st s2) := by
  subst hm
  have hb : (s2 == m.replySerial) = false := by simpa using hne
  have key : ∀ (r : CallResult),
      ((m.replySerial, r) :: st.resolved).lookup s2 = st.resolved.lookup s2 := by
    intro r
    simp [List.lookup, hb]
  refine ⟨⟨?_, ?_⟩, ⟨?_, ?_⟩, ⟨?_, ?_⟩⟩ <;> simp only [dispStep] <;> split
  · simp [List.mem_filter, hne]
  · exact Iff.rfl
  · simp only [awaitReply]
    exact key _
  · rfl
  · simp [List.mem_filter, hne]
  · exact Iff.rfl
  · simp only [awaitReply]
    exact key _
  · rfl
  · simp [List.mem_filter, hne]
  · exact Iff.rfl
  · simp only [awaitReply]
    exact key _
  · rfl


/-- Witness for C8: call 1 is untouched when call 2 times out, is
cancelled, or receives an error reply. -/
theorem percall_error_isolation_witness :
    ((1 ∈ (dispStep (dispRun [.send, .send]) (.timeout 2)).pending ↔
        1 ∈ (dispRun [.send, .send]).pending) ∧
      awaitReply (dispStep (dispRun [.send, .send]) (.timeout 2)) 1
        = awaitReply (dispRun [.send, .send]) 1) ∧
    ((1 ∈ (dispStep (dispRun [.send, .send]) (.cancel 2)).pending ↔
        1 ∈ (dispRun [.send, .send]).pending) ∧
      awaitReply (dispStep (dispRun [.send, .send]) (.cancel 2)) 1
        = awaitReply (dispRun [.send, .send]) 1) ∧
    ((1 ∈ (dispStep (dispRun [.send, .send]) (.recvReply ⟨2, true, 5⟩)).pending ↔
        1 ∈ (dispRun [.send, .send]).pending) ∧
      awaitReply (dispStep (dispRun [.send, .send]) (.recvReply ⟨2, true, 5⟩)) 1
        = awaitReply (dispRun [.send, .send]) 1) :=
  percall_error_isolation (dispRun [.send, .send]) 2 1 ⟨2, true, 5⟩ (by decide) (by decide)

/-- Claim C6: the handshake reaches Authenticated exactly on an explicit
positive acknowledgment line; any other response moves it to the terminal
Rejected state, from which no event ever changes the state or sends
anything again. -/
theorem handshake_authenticated_only_on_ok (l : String) (evs : List HEvent) :
    ((hsStep .authSent (.recvLine l)).1 = .authenticated ↔ isOkLine l = true) ∧
    (isOkLine l = false → hsStep .authSent (.recvLine l) = (.rejected, [])) ∧
    hsRun .rejected evs = (.rejected, []) := by
  refine ⟨?_, ?_, ?_⟩
  · by_cases h : isOkLine l <;> simp [hsStep, h]
  · intro h
    simp [hsStep, h]
  · induction evs with
    | nil => rfl
    | cons e evs ih =>
      have hstep : hsStep .rejected e = (.rejected, []) := by
        cases e <;> rfl
      simp [hsRun, hstep, ih]

/-- Witness for C6: a REJECTED line moves AuthSent to Rejected with
nothing sent, and from Rejected a whole event sequence sends nothing. -/
theorem handshake_authenticated_only_on_ok_witness :
    isOkLine "REJECTED" = false ∧
    hsStep .authSent (.recvLine "REJECTED") = (.rejected, []) ∧
    ((hsStep .authSent (.recvLine "OK 1a2b")).1 = .authenticated ↔
      isOkLine "OK 1a2b" = true) ∧
    hsRun .rejected [.start, .recvLine "OK 1a2b", .sendBegin] = (.rejected, []) :=
  ⟨by decide,
    (handshake_authenticated_only_on_ok "REJECTED" []).2.1 (by decide),
    (handshake_authenticated_only_on_ok "OK 1a2b" []).1,
    (handshake_authenticated_only_on_ok "x" [.start, .recvLine "OK 1a2b", .sendBegin]).2.2⟩

end DBus

end CDBus
